import Mathlib

/-!
Verification of the SF10 grade automation system.

This file gives a shallow embedding of the record-matching and
template-population engine of the repository (generate_sf10.py and
sf10_web_app.py) and proves, or refutes, the behavioural claims made about
it.  Pure Python functions become Lean functions; worksheets become total
functions from 1-indexed (row, column) pairs to cell values; fallible
operations return Except; machine reals do not occur (all grades are
modelled as integers).  Python string primitives (split, replace, strip,
upper, lower, substring test) are modelled character-exactly for the ASCII
range that the data uses.
-/

/-- Cell / scalar values as they appear in worksheets and pandas frames.
`null` models both an empty openpyxl cell (None) and a pandas missing value
(NaN); numbers are modelled as integers. -/
inductive Val where
  | null : Val
  | str : String → Val
  | num : Int → Val
deriving DecidableEq

/-- pandas pd.isna on a scalar. -/
def pd_isna : Val → Bool
  | .null => true
  | _ => false

/-- Python str() of a scalar value (pandas prints NaN as nan). -/
def pyStr : Val → String
  | .null => "nan"
  | .str s => s
  | .num n => toString n

/-- Python whitespace, as used by str.split / str.strip with no arguments:
space, tab, newline, carriage return, vertical tab, form feed. -/
def isPySpace (c : Char) : Bool :=
  c = ' ' || c = '\t' || c = '\n' || c = '\r' || c = Char.ofNat 11 || c = Char.ofNat 12

/-- Python str.strip() on a character list. -/
def pyStripL (l : List Char) : List Char :=
  ((l.dropWhile isPySpace).reverse.dropWhile isPySpace).reverse

/-- Python str.strip(). -/
def pyStrip (s : String) : String := String.mk (pyStripL s.toList)

/-- Python str.upper(), ASCII range. -/
def pyUpper (s : String) : String := String.mk (s.toList.map Char.toUpper)

/-- Python str.lower(), ASCII range. -/
def pyLower (s : String) : String := String.mk (s.toList.map Char.toLower)

/-- Python substring membership, pat in hay. -/
def pyContains (hay pat : String) : Bool :=
  decide (List.IsInfix pat.toList hay.toList)

/-- Helper for splitWsL: prepend a character to the first word of a word list. -/
def consHead (c : Char) : List (List Char) → List (List Char)
  | w :: ws => (c :: w) :: ws
  | [] => [[c]]

/-- Python str.split() with no separator: the maximal runs of
non-whitespace characters, in order (generate_sf10.py line 71). -/
def splitWsL : List Char → List (List Char)
  | [] => []
  | c :: cs =>
    if isPySpace c then splitWsL cs
    else
      match cs with
      | [] => [[c]]
      | d :: _ =>
        if isPySpace d then [c] :: splitWsL cs
        else consHead c (splitWsL cs)

/-- Python " ".join: interleave single spaces between words
(generate_sf10.py line 71). -/
def joinWordsL : List (List Char) → List Char
  | [] => []
  | [w] => w
  | w :: ws => w ++ ' ' :: joinWordsL ws

/-- Python str.replace of the two-character pattern space-comma by a comma:
a single left-to-right scan replacing non-overlapping occurrences
(generate_sf10.py line 73, first replace). -/
def delSpaceComma : List Char → List Char
  | [] => []
  | [c] => [c]
  | c :: d :: cs =>
    if c = ' ' ∧ d = ',' then ',' :: delSpaceComma cs
    else c :: delSpaceComma (d :: cs)

/-- Python str.replace of the two-character pattern comma-space by a comma
(generate_sf10.py line 73, second replace). -/
def delCommaSpace : List Char → List Char
  | [] => []
  | [c] => [c]
  | c :: d :: cs =>
    if c = ',' ∧ d = ' ' then ',' :: delCommaSpace cs
    else c :: delCommaSpace (d :: cs)

/-- Python str.replace of a comma by comma-space
(generate_sf10.py line 75). -/
def expandComma : List Char → List Char
  | [] => []
  | c :: cs =>
    if c = ',' then ',' :: ' ' :: expandComma cs
    else c :: expandComma cs

/-- SF10Generator._normalize_name (generate_sf10.py lines 63-76):
collapse whitespace runs, delete spaces adjacent to commas, put one space
after every comma, strip, uppercase. -/
def normalize_name (name : String) : String :=
  String.mk ((pyStripL (expandComma (delCommaSpace (delSpaceComma
    (joinWordsL (splitWsL name.toList)))))).map Char.toUpper)

/-- The five summary-sheet subject keys: the keys of subject_mapping
(generate_sf10.py lines 38-44), in dict insertion order. -/
inductive Subject where
  | language | reading | math | gmrc | makabansa
deriving DecidableEq

/-- Iteration order of subject_mapping.items(). -/
def subjectList : List Subject :=
  [.language, .reading, .math, .gmrc, .makabansa]

/-- Row of each subject in the SF10 sheet (0-indexed): the composition of
subject_mapping (generate_sf10.py lines 38-44) with sf10_subject_rows
(lines 47-53). -/
def sf10_subject_rows : Subject → Nat
  | .language => 29
  | .reading => 30
  | .math => 31
  | .gmrc => 32
  | .makabansa => 33

/-- The four quarters, i.e. the key set of sf10_quarter_columns. -/
inductive Quarter where
  | q1 | q2 | q3 | q4
deriving DecidableEq

/-- Iteration order of range(1, 5) in the clearing loop. -/
def quarterList : List Quarter := [.q1, .q2, .q3, .q4]

/-- Column of each quarter in the SF10 sheet (0-indexed),
generate_sf10.py lines 56-61. -/
def sf10_quarter_columns : Quarter → Nat
  | .q1 => 10
  | .q2 => 11
  | .q3 => 12
  | .q4 => 13

/-- Summary-grid column of each subject (generate_sf10.py lines 160-166). -/
def gradeColumn : Subject → Nat
  | .language => 5
  | .reading => 6
  | .math => 7
  | .gmrc => 8
  | .makabansa => 9

/-- An openpyxl worksheet, abstracted as its cell contents, addressed by
1-indexed (row, column) as in ws.cell(row=..., column=...). -/
abbrev Sheet := Nat → Nat → Val

/-- ws.cell(row := r, column := c).value = v. -/
def setCell (ws : Sheet) (r c : Nat) (v : Val) : Sheet :=
  fun r2 c2 => if r2 = r ∧ c2 = c then v else ws r2 c2

/-- A parsed student: raw name and the five subject grades, as built by
read_student_grades (generate_sf10.py lines 168-171). -/
structure StudentRecord where
  name : String
  grades : Subject → Val

/-- A learner profile row: LRN, birthday, sex
(generate_sf10.py lines 104-108). -/
structure Profile where
  lrn : Val
  birthday : Val
  sex : String

/-- Continuation of a digit run in the Python int() literal grammar:
every further character is a digit, or an underscore immediately followed
by a digit. -/
def intDigitsRest : List Char → Bool
  | [] => true
  | c :: cs =>
    if c.isDigit then intDigitsRest cs
    else if c = '_' then
      match cs with
      | [] => false
      | d :: cs2 => d.isDigit && intDigitsRest cs2
    else false

/-- A non-empty digit run with optional single underscores strictly
between digits: the body of a Python base-10 int literal after the
optional sign. -/
def intDigits : List Char → Bool
  | [] => false
  | c :: cs => c.isDigit && intDigitsRest cs

/-- Numeric value of a digit run, skipping underscores. -/
def digitsValue (l : List Char) : Nat :=
  l.foldl (fun acc c => if c.isDigit then acc * 10 + (c.toNat - 48) else acc) 0

/-- Python int() applied to a string (ASCII range): surrounding
whitespace is stripped, then an optional sign and a non-empty digit run
with optional single underscores between digits; any other string raises
ValueError, modelled as none. -/
def pyIntOfString (s : String) : Option Int :=
  match pyStripL s.toList with
  | '+' :: rest => if intDigits rest then some (Int.ofNat (digitsValue rest)) else none
  | '-' :: rest => if intDigits rest then some (-(Int.ofNat (digitsValue rest))) else none
  | rest => if intDigits rest then some (Int.ofNat (digitsValue rest)) else none

/-- The LRN cell written by generate_sf10_for_student (generate_sf10.py
line 212): str(int(profile LRN)) if pd.notna(...) else the empty string.
A missing LRN gives the empty string, a numeric LRN its canonical decimal
text; int() of a string LRN parses it, raising ValueError — modelled as
Except.error, aborting the call — when it is not an integer literal. -/
def lrnCellValue : Val → Except String Val
  | .null => .ok (.str "")
  | .num n => .ok (.str (toString n))
  | .str s =>
    match pyIntOfString s with
    | some n => .ok (.str (toString n))
    | none => .error "ValueError"

/-- The grade loop of generate_sf10_for_student with its clearing pass
(generate_sf10.py lines 221-236). -/
def writeGrades (ws : Sheet) (student : StudentRecord) (quarter : Quarter) : Sheet :=
  subjectList.foldl (fun w subj =>
    let w := setCell w (sf10_subject_rows subj + 1) (sf10_quarter_columns quarter + 1)
      (student.grades subj)
    quarterList.foldl (fun w2 q =>
      if q ≠ quarter then
        setCell w2 (sf10_subject_rows subj + 1) (sf10_quarter_columns q + 1) (.str "")
      else w2) w) ws

/-- SF10Generator.generate_sf10_for_student (generate_sf10.py lines
175-236), restricted to its effect on the worksheet: name-field writes
(lines 197-203), optional profile writes (lines 205-219), and the grade
loop with its clearing pass (lines 221-236).  When the profile block runs
and int() on a string LRN raises ValueError at line 212, the call aborts
before the grade loop and no sheet is produced.  Workbook loading and
saving are I/O around this transformation and are elided. -/
def generate_sf10_for_student (ws : Sheet) (profile_data : String → Option Profile)
    (student : StudentRecord) (quarter : Quarter) : Except String Sheet :=
  let parts := student.name.splitOn ","
  let last_name := pyStrip (parts.getD 0 "")
  let first_name := pyStrip (parts.getD 1 "")
  let middle_name := pyStrip (parts.getD 2 "")
  let ws := setCell ws 9 5 (.str last_name)
  let ws := setCell ws 9 17 (.str first_name)
  let ws := setCell ws 9 42 (.str middle_name)
  match profile_data (normalize_name student.name) with
  | some profile =>
    match lrnCellValue profile.lrn with
    | .error e => .error e
    | .ok lrnV =>
      let ws := setCell ws 10 10 lrnV
      let ws := setCell ws 10 21 profile.birthday
      let ws := setCell ws 10 45 (.str profile.sex)
      .ok (writeGrades ws student quarter)
  | none => .ok (writeGrades ws student quarter)

/-- Counterexample to claim C1 as stated: populating is not total over
student records and loaded profiles.  When the matched profile holds the
string LRN "N/A", int() at generate_sf10.py line 212 raises ValueError
before the grade loop, so the call produces no populated sheet at all and
none of the claimed writes or clears occur. -/
theorem C1_counterexample :
    generate_sf10_for_student (fun _ _ => Val.num 99)
      (fun _ => some ⟨Val.str "N/A", Val.null, "M"⟩)
      ⟨"DOE,JOHN, A", fun _ => Val.num 85⟩ Quarter.q1 =
      Except.error "ValueError" := rfl

/-- C1 (amended): whenever populating the sheet for quarter q returns a
sheet — which it does unless a matched profile holds a string LRN that is
not an integer literal, in which case int() raises ValueError before the
grade loop — the returned sheet holds the grade of every subject at that
subject's row in the q column, and the empty value at the same subject
rows of the other three quarter columns, whatever the template held
there, so exactly one quarter column is populated by the call. -/
theorem C1_amended_populate_writes_one_quarter_and_clears_others
    (ws : Sheet) (pd : String → Option Profile)
    (st : StudentRecord) (q : Quarter) (out : Sheet)
    (hout : generate_sf10_for_student ws pd st q = Except.ok out) :
    (∀ subj : Subject,
      out (sf10_subject_rows subj + 1) (sf10_quarter_columns q + 1) =
        st.grades subj) ∧
    (∀ (subj : Subject) (qb : Quarter), qb ≠ q →
      out (sf10_subject_rows subj + 1) (sf10_quarter_columns qb + 1) =
        Val.str "") := by
  have hgen : ∃ w0, out = writeGrades w0 st q := by
    simp only [generate_sf10_for_student] at hout
    cases hp : pd (normalize_name st.name) with
    | none =>
      simp only [hp] at hout
      exact ⟨_, (Except.ok.inj hout).symm⟩
    | some profile =>
      simp only [hp] at hout
      cases hl : lrnCellValue profile.lrn with
      | error e =>
        simp only [hl] at hout
        exact Except.noConfusion hout
      | ok v =>
        simp only [hl] at hout
        exact ⟨_, (Except.ok.inj hout).symm⟩
  obtain ⟨w0, rfl⟩ := hgen
  constructor
  · intro subj
    cases subj <;> cases q <;>
      simp [writeGrades, setCell, subjectList, quarterList,
        sf10_subject_rows, sf10_quarter_columns]
  · intro subj qb hne
    cases subj <;> cases q <;> cases qb <;>
      first
        | exact absurd rfl hne
        | simp [writeGrades, setCell, subjectList, quarterList,
            sf10_subject_rows, sf10_quarter_columns]

/-- Witness for C1 at a concrete record, sheet and quarter: the call
completes (no profile is matched) and the quarter-1 cell of the language
row reads back empty after a quarter-2 populate. -/
theorem C1_witness :
    (Quarter.q1 ≠ Quarter.q2) ∧
    writeGrades (setCell (setCell (setCell (fun _ _ => Val.num 99) 9 5
        (Val.str (pyStrip ((("DOE,JOHN, A").splitOn ",").getD 0 "")))) 9 17
        (Val.str (pyStrip ((("DOE,JOHN, A").splitOn ",").getD 1 "")))) 9 42
        (Val.str (pyStrip ((("DOE,JOHN, A").splitOn ",").getD 2 ""))))
      ⟨"DOE,JOHN, A", fun _ => Val.num 85⟩ Quarter.q2 30 11 = Val.str "" :=
  ⟨by decide,
    (C1_amended_populate_writes_one_quarter_and_clears_others
      (fun _ _ => Val.num 99) (fun _ => none)
      ⟨"DOE,JOHN, A", fun _ => Val.num 85⟩ Quarter.q2 _ rfl).2
      Subject.language Quarter.q1 (by decide)⟩

/-- C9: when the normalized name is absent from the loaded profile mapping,
the call always completes, and the returned sheet keeps the previous
contents of the three profile cells (LRN at (10,10), birth date at
(10,21), sex at (10,45)), while the name fields and the grades are still
written. -/
theorem C9_missing_profile_leaves_profile_cells_unchanged
    (ws : Sheet) (pd : String → Option Profile)
    (st : StudentRecord) (q : Quarter)
    (h : pd (normalize_name st.name) = none) :
    (∀ out : Sheet, generate_sf10_for_student ws pd st q = Except.ok out →
      out 10 10 = ws 10 10 ∧
      out 10 21 = ws 10 21 ∧
      out 10 45 = ws 10 45 ∧
      out 9 5 = Val.str (pyStrip ((st.name.splitOn ",").getD 0 "")) ∧
      out 9 17 = Val.str (pyStrip ((st.name.splitOn ",").getD 1 "")) ∧
      out 9 42 = Val.str (pyStrip ((st.name.splitOn ",").getD 2 "")) ∧
      (∀ subj : Subject,
        out (sf10_subject_rows subj + 1) (sf10_quarter_columns q + 1) =
          st.grades subj)) ∧
    (∃ out : Sheet, generate_sf10_for_student ws pd st q = Except.ok out) := by
  have hgen : generate_sf10_for_student ws pd st q =
      Except.ok (writeGrades (setCell (setCell (setCell ws 9 5
        (Val.str (pyStrip ((st.name.splitOn ",").getD 0 "")))) 9 17
        (Val.str (pyStrip ((st.name.splitOn ",").getD 1 "")))) 9 42
        (Val.str (pyStrip ((st.name.splitOn ",").getD 2 "")))) st q) := by
    simp only [generate_sf10_for_student, h]
  refine ⟨?_, ⟨_, hgen⟩⟩
  intro out hout
  rw [hgen] at hout
  obtain rfl := (Except.ok.inj hout).symm
  refine ⟨?_, ?_, ?_, ?_, ?_, ?_, fun subj => ?_⟩
  all_goals
    cases q <;> (try cases subj) <;>
      simp [writeGrades, setCell, subjectList, quarterList,
        sf10_subject_rows, sf10_quarter_columns]

/-- Witness for C9 at a concrete record, sheet and quarter: the call
completes and the LRN cell (10,10) of the returned sheet keeps the value
the template held there. -/
theorem C9_witness :
    writeGrades (setCell (setCell (setCell
        (fun r c => Val.num (Int.ofNat (100 * r + c))) 9 5
        (Val.str (pyStrip ((("DOE,JOHN, A").splitOn ",").getD 0 "")))) 9 17
        (Val.str (pyStrip ((("DOE,JOHN, A").splitOn ",").getD 1 "")))) 9 42
        (Val.str (pyStrip ((("DOE,JOHN, A").splitOn ",").getD 2 ""))))
      ⟨"DOE,JOHN, A", fun _ => Val.num 85⟩ Quarter.q1 10 10 =
      (fun r c => Val.num (Int.ofNat (100 * r + c)) : Sheet) 10 10 :=
  (((C9_missing_profile_leaves_profile_cells_unchanged
    (fun r c => Val.num (Int.ofNat (100 * r + c))) (fun _ => none)
    ⟨"DOE,JOHN, A", fun _ => Val.num 85⟩ Quarter.q1 rfl).1 _ rfl).1)

/-- A pandas DataFrame as read with header=None: a uniform column count
(the column labels are 0 .. ncols-1) and rows as total functions from
column index to value.  A missing value is null. -/
structure Grid where
  ncols : Nat
  rows : List (Nat → Val)

/-- pandas row[c]: KeyError (modelled as Except.error) when the column
label c is absent from the row index. -/
def rowGet (ncols : Nat) (row : Nat → Val) (c : Nat) : Except Unit Val :=
  if c < ncols then .ok (row c) else .error ()

/-- safe_get_grade (generate_sf10.py lines 152-158): the value at a grade
column, where a column that is absent from the row index or holds a
missing value resolves to 0.  Total: it cannot raise. -/
def safe_get_grade (ncols : Nat) (row : Nat → Val) (col_idx : Nat) : Val :=
  if col_idx < ncols then
    (if pd_isna (row col_idx) then .num 0 else row col_idx)
  else .num 0

/-- The reserved header and label tokens that do not start a student row
(generate_sf10.py line 148). -/
def reservedTokens : List String :=
  ["MALE", "FEMALE", "LEARNERS" ++ String.mk [Char.ofNat 39] ++ " NAMES", ""]

/-- The record built from one student row (generate_sf10.py lines
144-171): stripped name string and the five grades from columns 5-9. -/
def mkStudent (ncols : Nat) (row : Nat → Val) : StudentRecord :=
  { name := pyStrip (pyStr (row 1))
    grades := fun subj => safe_get_grade ncols row (gradeColumn subj) }

/-- The student-row test of generate_sf10.py lines 141-149: the name cell
(column 1) is neither missing nor the empty string, and its stripped
string form is not a reserved label. -/
def isStudentRow (row : Nat → Val) : Bool :=
  !(pd_isna (row 1) || row 1 == Val.str "") &&
    !(reservedTokens.contains (pyStrip (pyStr (row 1))))

/-- One iteration of the row loop of read_student_grades
(generate_sf10.py lines 137-171). -/
def read_student_grades_step (ncols : Nat) (acc : Except Unit (List StudentRecord))
    (row : Nat → Val) : Except Unit (List StudentRecord) :=
  match acc with
  | .error e => .error e
  | .ok students =>
    match rowGet ncols row 1 with
    | .error e => .error e
    | .ok nameCell =>
      if pd_isna nameCell || nameCell == Val.str "" then .ok students
      else if reservedTokens.contains (pyStrip (pyStr nameCell)) then .ok students
      else .ok (students ++ [mkStudent ncols row])

/-- SF10Generator.read_student_grades (generate_sf10.py lines 117-173):
scan every row from the fixed offset 10 to the end of the sheet and build
a record per student row.  The unguarded name-cell access row[1] can raise
(Except.error) when the grid has no column 1. -/
def read_student_grades (g : Grid) : Except Unit (List StudentRecord) :=
  (g.rows.drop 10).foldl (read_student_grades_step g.ncols) (.ok [])

theorem read_student_grades_fold (ncols : Nat) (h : 2 ≤ ncols)
    (rows : List (Nat → Val)) : ∀ acc : List StudentRecord,
    rows.foldl (read_student_grades_step ncols) (.ok acc) =
      .ok (acc ++ (rows.filter isStudentRow).map (mkStudent ncols)) := by
  induction rows with
  | nil => intro acc; simp
  | cons row rest ih =>
    intro acc
    have h1 : rowGet ncols row 1 = .ok (row 1) := by
      simp only [rowGet, if_pos (by omega : 1 < ncols)]
    rw [List.foldl_cons, List.filter_cons]
    by_cases hna : (pd_isna (row 1) || row 1 == Val.str "") = true
    · have hs : isStudentRow row = false := by
        simp only [isStudentRow, hna, Bool.not_true, Bool.false_and]
      rw [hs]
      simp only [read_student_grades_step, h1, hna, if_true, Bool.false_eq_true,
        if_false]
      exact ih acc
    · rw [Bool.not_eq_true] at hna
      by_cases hres : reservedTokens.contains (pyStrip (pyStr (row 1))) = true
      · have hs : isStudentRow row = false := by
          simp only [isStudentRow, hna, hres, Bool.not_false, Bool.true_and,
            Bool.not_true]
        rw [hs]
        simp only [read_student_grades_step, h1, hna, hres, if_true,
          Bool.false_eq_true, if_false]
        exact ih acc
      · rw [Bool.not_eq_true] at hres
        have hs : isStudentRow row = true := by
          simp only [isStudentRow, hna, hres, Bool.not_false, Bool.true_and]
        rw [hs]
        simp only [read_student_grades_step, h1, hna, hres, Bool.false_eq_true,
          if_false, if_true]
        rw [ih (acc ++ [mkStudent ncols row])]
        simp

/-- C3: on any grid whose rows have the name column (column index 1), the
parser succeeds and returns exactly the rows at or below offset 10 whose
name cell is non-missing, non-empty and, once stripped, not a reserved
label - mapped to records in sheet order, so duplicates are kept, blank
rows are skipped rather than terminating the scan, and the scan stops only
at end of sheet. -/
theorem C3_parser_emits_filtered_rows_in_order (g : Grid) (h : 2 ≤ g.ncols) :
    read_student_grades g =
      .ok (((g.rows.drop 10).filter isStudentRow).map (mkStudent g.ncols)) := by
  unfold read_student_grades
  rw [read_student_grades_fold g.ncols h (g.rows.drop 10) []]
  simp

/-- A small concrete grid: ten filler rows, one student row, one blank row,
one reserved-label row, then a second student row. -/
def sampleGrid : Grid :=
  { ncols := 10
    rows := List.replicate 10 (fun _ => Val.null) ++
      [fun c => if c = 1 then Val.str "AGOT,KHIAN CLOUD, DABLO"
        else if c = 7 then Val.num 86 else Val.null,
       fun _ => Val.null,
       fun c => if c = 1 then Val.str "MALE" else Val.null,
       fun c => if c = 1 then Val.str "AGOT,KHIAN CLOUD, DABLO"
        else if c = 5 then Val.num 90 else Val.null] }

/-- Witness for C3 on sampleGrid. -/
theorem C3_witness :
    2 ≤ sampleGrid.ncols ∧
    read_student_grades sampleGrid =
      .ok (((sampleGrid.rows.drop 10).filter isStudentRow).map (mkStudent 10)) :=
  ⟨by decide, C3_parser_emits_filtered_rows_in_order sampleGrid (by decide)⟩

/-- C4: a grade column that is absent from the row index or holds a
missing value resolves to 0 (and grade reading is a total function, so it
cannot raise); a row that supplies exactly one grade column yields that
value for its subject and 0 for the other four. -/
theorem C4_missing_grade_defaults_to_zero (ncols : Nat) (row : Nat → Val) (c : Nat) :
    (ncols ≤ c → safe_get_grade ncols row c = Val.num 0) ∧
    (row c = Val.null → safe_get_grade ncols row c = Val.num 0) ∧
    (∀ (s : Subject) (v : Val),
      gradeColumn s < ncols → row (gradeColumn s) = v → v ≠ Val.null →
      (∀ s2 : Subject, s2 ≠ s → row (gradeColumn s2) = Val.null) →
      (mkStudent ncols row).grades s = v ∧
        ∀ s2 : Subject, s2 ≠ s → (mkStudent ncols row).grades s2 = Val.num 0) := by
  refine ⟨?_, ?_, ?_⟩
  · intro hc
    simp only [safe_get_grade, if_neg (by omega : ¬ c < ncols)]
  · intro hv
    by_cases hc : c < ncols
    · simp [safe_get_grade, hc, hv, pd_isna]
    · simp [safe_get_grade, hc]
  · intro s v hlt hval hnn hothers
    constructor
    · have : pd_isna v = false := by
        cases v with
        | null => exact absurd rfl hnn
        | str s => rfl
        | num n => rfl
      simp [mkStudent, safe_get_grade, hlt, hval, this]
    · intro s2 hs2
      by_cases hc2 : gradeColumn s2 < ncols
      · simp [mkStudent, safe_get_grade, hc2, hothers s2 hs2, pd_isna]
      · simp [mkStudent, safe_get_grade, hc2]

/-- Witness for C4: a row whose only grade is 86 in column 7 (MATH). -/
theorem C4_witness :
    (mkStudent 8 (fun c => if c = 7 then Val.num 86 else Val.null)).grades Subject.math
        = Val.num 86 ∧
    (mkStudent 8 (fun c => if c = 7 then Val.num 86 else Val.null)).grades Subject.language
        = Val.num 0 := by
  have h := (C4_missing_grade_defaults_to_zero 8
      (fun c => if c = 7 then Val.num 86 else Val.null) 0).2.2
    Subject.math (Val.num 86) (by decide) (by decide) (by decide)
    (by intro s2 hs2; cases s2 <;> first | rfl | exact absurd rfl hs2)
  exact ⟨h.1, h.2 Subject.language (by decide)⟩

/-- An openpyxl workbook: the ordered sheets with their titles. -/
abbrev Workbook := List (String × Sheet)

/-- wb.sheetnames. -/
def sheetNames (wb : Workbook) : List String := wb.map Prod.fst

/-- The grade-write loop of the merge engine (sf10_web_app.py lines
164-169): write the five grade cells of one quarter into one sheet.
No other cell is touched and no clearing pass runs. -/
def write_quarter_grades (ws : Sheet) (grades : Subject → Val) (q : Quarter) : Sheet :=
  subjectList.foldl (fun w subj =>
    setCell w (sf10_subject_rows subj + 1) (sf10_quarter_columns q + 1) (grades subj)) ws

/-- Python last_name in sheet_name, the containment test of
sf10_web_app.py line 156. -/
def sheetNameMatches (last_name sheet_name : String) : Bool :=
  pyContains sheet_name last_name

/-- The last name of a student record (sf10_web_app.py lines 147-148). -/
def lastNameOf (name : String) : String :=
  pyStrip ((name.splitOn ",").getD 0 "")

/-- sf10_web_app.py lines 152-158: the first sheet title that contains the
last name, if any. -/
def findMatchingSheet (wb : Workbook) (last_name : String) : Option String :=
  (sheetNames wb).find? (fun sn => sheetNameMatches last_name sn)

/-- base_wb[matching_sheet] update: replace the first sheet carrying the
given title (openpyxl titles are unique; access is by title). -/
def updateSheet (wb : Workbook) (n : String) (f : Sheet → Sheet) : Workbook :=
  match wb with
  | [] => []
  | (n2, s) :: rest =>
    if n2 = n then (n2, f s) :: rest else (n2, s) :: updateSheet rest n f

/-- The per-student body of the merge loop (sf10_web_app.py lines
145-173): locate the matching sheet by last-name containment, first match
wins, and write the five quarter cells into it; skip the student when no
sheet matches. -/
def merge_student (wb : Workbook) (st : StudentRecord) (q : Quarter) : Workbook :=
  match findMatchingSheet wb (lastNameOf st.name) with
  | none => wb
  | some n => updateSheet wb n (fun ws => write_quarter_grades ws st.grades q)

/-- One merge pass of merge_quarters_into_sf10 (sf10_web_app.py lines
133-173): the per-student merge for every parsed record of one
(grading sheet, quarter) pair, in sheet order. -/
def merge_quarters_pass (wb : Workbook) (students : List StudentRecord)
    (q : Quarter) : Workbook :=
  students.foldl (fun w st => merge_student w st q) wb

/-- The grade folds applied to one sheet by a merge pass. -/
def applyStudents (s0 : Sheet) (sts : List StudentRecord) (q : Quarter) : Sheet :=
  sts.foldl (fun w st => write_quarter_grades w st.grades q) s0

/-- The value of cell (r, c) of the i-th sheet of a workbook. -/
def cellAt (wb : Workbook) (i r c : Nat) : Option Val :=
  (wb[i]?).map (fun p => p.2 r c)

theorem setCell_ne (ws : Sheet) (a b : Nat) (v : Val) (r c : Nat)
    (h : ¬(r = a ∧ c = b)) : setCell ws a b v r c = ws r c := if_neg h

theorem setCell_eq (ws : Sheet) (a b : Nat) (v : Val) :
    setCell ws a b v a b = v := if_pos ⟨rfl, rfl⟩

theorem write_quarter_grades_frame (g : Subject → Val) (q : Quarter) (r c : Nat)
    (h : ∀ subj : Subject,
      ¬(r = sf10_subject_rows subj + 1 ∧ c = sf10_quarter_columns q + 1)) :
    ∀ ws : Sheet, write_quarter_grades ws g q r c = ws r c := by
  unfold write_quarter_grades
  generalize subjectList = l
  induction l with
  | nil => intro ws; rfl
  | cons a l ih =>
    intro ws
    rw [List.foldl_cons, ih]
    exact setCell_ne ws _ _ _ r c (h a)

theorem cellAt_updateSheet_frame (n : String) (f : Sheet → Sheet) (r c : Nat)
    (hf : ∀ ws : Sheet, f ws r c = ws r c) :
    ∀ (wb : Workbook) (i : Nat), cellAt (updateSheet wb n f) i r c = cellAt wb i r c := by
  intro wb
  induction wb with
  | nil => intro i; rfl
  | cons hd rest ih =>
    obtain ⟨n2, s⟩ := hd
    intro i
    by_cases hn : n2 = n
    · simp only [updateSheet, if_pos hn]
      cases i with
      | zero => simp [cellAt, hf s]
      | succ j => simp [cellAt]
    · simp only [updateSheet, if_neg hn]
      cases i with
      | zero => simp [cellAt]
      | succ j =>
        simpa [cellAt] using ih j

/-- C2: a merge step for quarter q and one student writes at most the five
grade cells at (subject row, quarter-q column) of the matched sheet: every
cell of every sheet outside those five coordinates - name fields and the
other three quarter columns included - is unchanged; and after merging
quarter 1 into a sheet, a quarter-2 merge leaves the quarter-1 cells
exactly as the quarter-1 merge wrote them. -/
theorem C2_merge_touches_only_five_quarter_cells
    (wb : Workbook) (st : StudentRecord) (q : Quarter) :
    (∀ i r c,
      (∀ subj : Subject,
        ¬(r = sf10_subject_rows subj + 1 ∧ c = sf10_quarter_columns q + 1)) →
      cellAt (merge_student wb st q) i r c = cellAt wb i r c) ∧
    (∀ (ws : Sheet) (g1 g2 : Subject → Val) (subj : Subject),
      write_quarter_grades (write_quarter_grades ws g1 .q1) g2 .q2
          (sf10_subject_rows subj + 1) (sf10_quarter_columns .q1 + 1) =
        write_quarter_grades ws g1 .q1
          (sf10_subject_rows subj + 1) (sf10_quarter_columns .q1 + 1) ∧
      write_quarter_grades ws g1 .q1
          (sf10_subject_rows subj + 1) (sf10_quarter_columns .q1 + 1) = g1 subj) := by
  constructor
  · intro i r c h
    unfold merge_student
    cases hm : findMatchingSheet wb (lastNameOf st.name) with
    | none => rfl
    | some n =>
      exact cellAt_updateSheet_frame n _ r c
        (fun ws => write_quarter_grades_frame st.grades q r c h ws) wb i
  · intro ws g1 g2 subj
    constructor
    · apply write_quarter_grades_frame
      intro subj2
      simp [sf10_quarter_columns]
    · cases subj <;>
        simp [write_quarter_grades, subjectList, setCell,
          sf10_subject_rows, sf10_quarter_columns]

/-- Witness for C2: the name-field cell (9,5) of the only sheet is
untouched by a concrete quarter-2 merge. -/
theorem C2_witness :
    cellAt (merge_student [("DOE JOHN", fun _ _ => Val.num 1)]
      ⟨"DOE,JOHN, A", fun _ => Val.num 85⟩ Quarter.q2) 0 9 5 =
    cellAt [("DOE JOHN", fun _ _ => Val.num 1)] 0 9 5 :=
  (C2_merge_touches_only_five_quarter_cells
    [("DOE JOHN", fun _ _ => Val.num 1)] ⟨"DOE,JOHN, A", fun _ => Val.num 85⟩
    Quarter.q2).1 0 9 5
    (by intro subj; cases subj <;> simp [sf10_subject_rows, sf10_quarter_columns])

theorem merge_student_cons (n0 : String) (s0 : Sheet) (rest : Workbook)
    (st : StudentRecord) (q : Quarter) :
    merge_student ((n0, s0) :: rest) st q =
      if sheetNameMatches (lastNameOf st.name) n0 then
        (n0, write_quarter_grades s0 st.grades q) :: rest
      else (n0, s0) :: merge_student rest st q := by
  by_cases hm : sheetNameMatches (lastNameOf st.name) n0
  · rw [if_pos hm]
    unfold merge_student findMatchingSheet sheetNames
    rw [List.map_cons, List.find?_cons_of_pos _ hm]
    simp [updateSheet]
  · rw [if_neg hm]
    unfold merge_student findMatchingSheet sheetNames
    rw [List.map_cons, List.find?_cons_of_neg _ hm]
    cases hf : (rest.map Prod.fst).find? (fun sn => sheetNameMatches (lastNameOf st.name) sn) with
    | none => rfl
    | some n =>
      have hp := List.find?_some hf
      have hne : n0 ≠ n := by
        intro hEq
        rw [hEq] at hm
        exact hm hp
      simp [updateSheet, hne]

theorem merge_pass_nil (sts : List StudentRecord) (q : Quarter) :
    merge_quarters_pass [] sts q = [] := by
  induction sts with
  | nil => rfl
  | cons st sts ih =>
    unfold merge_quarters_pass at ih ⊢
    rw [List.foldl_cons]
    have : merge_student [] st q = [] := rfl
    rw [this, ih]

theorem merge_pass_cons (n0 : String) (s0 : Sheet) (rest : Workbook)
    (sts : List StudentRecord) (q : Quarter) :
    merge_quarters_pass ((n0, s0) :: rest) sts q =
      (n0, applyStudents s0
          (sts.filter (fun st => sheetNameMatches (lastNameOf st.name) n0)) q) ::
        merge_quarters_pass rest
          (sts.filter (fun st => !(sheetNameMatches (lastNameOf st.name) n0))) q := by
  induction sts generalizing s0 rest with
  | nil => rfl
  | cons st sts ih =>
    show merge_quarters_pass (merge_student ((n0, s0) :: rest) st q) sts q = _
    rw [merge_student_cons]
    by_cases hm : sheetNameMatches (lastNameOf st.name) n0
    · rw [if_pos hm]
      rw [ih (write_quarter_grades s0 st.grades q) rest]
      simp only [List.filter_cons, hm, Bool.not_true, if_true, Bool.false_eq_true, if_false]
      rfl
    · rw [if_neg hm]
      rw [ih s0 (merge_student rest st q)]
      simp only [List.filter_cons, hm, Bool.not_false, Bool.false_eq_true, if_false, if_true]
      rfl

/-- A single cell assignment: row, column, value. -/
abbrev CellWrite := Nat × Nat × Val

def applyCellWrites (ws : Sheet) (l : List CellWrite) : Sheet :=
  l.foldl (fun w t => setCell w t.1 t.2.1 t.2.2) ws

def quarterWrites (g : Subject → Val) (q : Quarter) : List CellWrite :=
  subjectList.map (fun subj =>
    (sf10_subject_rows subj + 1, sf10_quarter_columns q + 1, g subj))

def studentsWrites : List StudentRecord → Quarter → List CellWrite
  | [], _ => []
  | st :: sts, q => quarterWrites st.grades q ++ studentsWrites sts q

theorem write_quarter_grades_eq (ws : Sheet) (g : Subject → Val) (q : Quarter) :
    write_quarter_grades ws g q = applyCellWrites ws (quarterWrites g q) := by
  unfold write_quarter_grades applyCellWrites quarterWrites
  rw [List.foldl_map]

theorem applyCellWrites_append (ws : Sheet) (a b : List CellWrite) :
    applyCellWrites ws (a ++ b) = applyCellWrites (applyCellWrites ws a) b := by
  unfold applyCellWrites
  rw [List.foldl_append]

theorem applyStudents_eq (s0 : Sheet) (sts : List StudentRecord) (q : Quarter) :
    applyStudents s0 sts q = applyCellWrites s0 (studentsWrites sts q) := by
  induction sts generalizing s0 with
  | nil => rfl
  | cons st sts ih =>
    show applyStudents (write_quarter_grades s0 st.grades q) sts q = _
    rw [ih, studentsWrites, applyCellWrites_append, write_quarter_grades_eq]

theorem applyCellWrites_unwritten (r c : Nat) (l : List CellWrite)
    (h : ∀ t ∈ l, ¬(r = t.1 ∧ c = t.2.1)) :
    ∀ ws : Sheet, applyCellWrites ws l r c = ws r c := by
  induction l with
  | nil => intro ws; rfl
  | cons t l ih =>
    intro ws
    show applyCellWrites (setCell ws t.1 t.2.1 t.2.2) l r c = ws r c
    rw [ih (fun u hu => h u (List.mem_cons_of_mem t hu))]
    exact setCell_ne ws _ _ _ r c (h t (List.mem_cons_self t l))

theorem applyCellWrites_written_indep (r c : Nat) (l : List CellWrite)
    (h : ∃ t ∈ l, r = t.1 ∧ c = t.2.1) :
    ∀ ws ws2 : Sheet, applyCellWrites ws l r c = applyCellWrites ws2 l r c := by
  induction l with
  | nil =>
    obtain ⟨t, ht, _⟩ := h
    exact absurd ht (List.not_mem_nil t)
  | cons t l ih =>
    intro ws ws2
    show applyCellWrites (setCell ws t.1 t.2.1 t.2.2) l r c =
      applyCellWrites (setCell ws2 t.1 t.2.1 t.2.2) l r c
    by_cases hl : ∃ u ∈ l, r = u.1 ∧ c = u.2.1
    · exact ih hl _ _
    · have hall : ∀ u ∈ l, ¬(r = u.1 ∧ c = u.2.1) := by
        intro u hu hrc
        exact hl ⟨u, hu, hrc⟩
      obtain ⟨u, hu, hrc⟩ := h
      have hu0 : u = t := by
        rcases List.mem_cons.mp hu with h1 | h2
        · exact h1
        · exact absurd hrc (hall u h2)
      subst hu0
      obtain ⟨hr, hc⟩ := hrc
      subst hr; subst hc
      rw [applyCellWrites_unwritten _ _ l hall, applyCellWrites_unwritten _ _ l hall]
      rw [setCell_eq, setCell_eq]

theorem applyCellWrites_idem (ws : Sheet) (l : List CellWrite) :
    applyCellWrites (applyCellWrites ws l) l = applyCellWrites ws l := by
  funext r c
  by_cases h : ∃ t ∈ l, r = t.1 ∧ c = t.2.1
  · exact applyCellWrites_written_indep r c l h _ _
  · have hall : ∀ t ∈ l, ¬(r = t.1 ∧ c = t.2.1) := by
      intro t ht hrc
      exact h ⟨t, ht, hrc⟩
    rw [applyCellWrites_unwritten r c l hall]

theorem applyStudents_idem (s0 : Sheet) (sts : List StudentRecord) (q : Quarter) :
    applyStudents (applyStudents s0 sts q) sts q = applyStudents s0 sts q := by
  rw [applyStudents_eq, applyStudents_eq]
  exact applyCellWrites_idem _ _

/-- C7: re-running the merge pass with the same parsed student list and the
same quarter against the already-merged workbook rewrites the same five
cells per matched student with the same values, leaving the workbook
contents exactly as after the first pass. -/
theorem C7_merge_pass_idempotent (wb : Workbook) (sts : List StudentRecord)
    (q : Quarter) :
    merge_quarters_pass (merge_quarters_pass wb sts q) sts q =
      merge_quarters_pass wb sts q := by
  induction wb generalizing sts with
  | nil => rw [merge_pass_nil, merge_pass_nil]
  | cons hd rest ih =>
    obtain ⟨n0, s0⟩ := hd
    rw [merge_pass_cons]
    rw [merge_pass_cons]
    rw [applyStudents_idem, ih]

/-- A Python dict keyed by strings, as lookup: later insertions win. -/
abbrev ProfileMap := String → Option Profile

def emptyProfileMap : ProfileMap := fun _ => none

def insertProfile (m : ProfileMap) (k : String) (p : Profile) : ProfileMap :=
  fun x => if x = k then some p else m x

/-- The dict-building loop of _load_learners_profile (generate_sf10.py
lines 100-108): keys are normalized names; LRN from column 1, birthday
from column 8, sex from column 10 stripped and uppercased. -/
def buildProfileRows (rows : List (Nat → Val)) : ProfileMap :=
  rows.foldl (fun m row =>
    insertProfile m (normalize_name (pyStr (row 4)))
      { lrn := row 1, birthday := row 8, sex := pyUpper (pyStrip (pyStr (row 10))) })
    emptyProfileMap

/-- The try-block of _load_learners_profile (generate_sf10.py lines
89-111): select columns 1, 4, 8, 10 of the frame (KeyError when one is
absent), drop rows with a missing NAME, build the dict. -/
def buildProfileDict (g : Grid) : Except Unit ProfileMap :=
  if 10 < g.ncols then
    .ok (buildProfileRows (g.rows.filter (fun row => !(pd_isna (row 4)))))
  else .error ()

/-- SF10Generator._load_learners_profile (generate_sf10.py lines 78-115).
The input is none when the roster file does not exist (line 85), some
(.error e) when pandas raises while reading it, some (.ok g) when the
post-skiprows frame g was read.  The try/except collapses every failure to
the empty mapping. -/
def load_learners_profile (inp : Option (Except Unit Grid)) : ProfileMap :=
  match inp with
  | none => emptyProfileMap
  | some (.error _) => emptyProfileMap
  | some (.ok g) =>
    match buildProfileDict g with
    | .error _ => emptyProfileMap
    | .ok m => m

/-- C8: the profile loader is a total function that either returns the
mapping built from the roster grid, keyed by normalized names, or - on
every failure path: missing file, unreadable file, malformed frame -
returns the empty mapping, never propagating the failure. -/
theorem C8_profile_loader_degrades_to_empty (inp : Option (Except Unit Grid)) :
    load_learners_profile inp = emptyProfileMap ∨
    (∃ g : Grid, inp = some (.ok g) ∧ 10 < g.ncols ∧
      load_learners_profile inp =
        buildProfileRows (g.rows.filter (fun row => !(pd_isna (row 4))))) := by
  match inp with
  | none => exact Or.inl rfl
  | some (.error e) => exact Or.inl rfl
  | some (.ok g) =>
    by_cases h : 10 < g.ncols
    · exact Or.inr ⟨g, rfl, h, by simp [load_learners_profile, buildProfileDict, h]⟩
    · exact Or.inl (by simp [load_learners_profile, buildProfileDict, h])

/-- identify_quarter_from_filename (sf10_web_app.py lines 26-37):
lowercase the filename, then test quarter 1, 2, 3, 4 in that order, each
with its ordinal token, its bare digit-space token, and its word token. -/
def identify_quarter_from_filename (filename : String) : Option Nat :=
  let f := pyLower filename
  if pyContains f "1st" || pyContains f "1 " || pyContains f "first" then some 1
  else if pyContains f "2nd" || pyContains f "2 " || pyContains f "second" then some 2
  else if pyContains f "3rd" || pyContains f "3 " || pyContains f "third" then some 3
  else if pyContains f "4th" || pyContains f "4 " || pyContains f "fourth" then some 4
  else none

/-- The token set tested for each quarter, including the bare digit-space
token (sf10_web_app.py lines 29-36). -/
def quarterTokens : Nat → List String
  | 1 => ["1st", "1 ", "first"]
  | 2 => ["2nd", "2 ", "second"]
  | 3 => ["3rd", "3 ", "third"]
  | 4 => ["4th", "4 ", "fourth"]
  | _ => []

/-- Does the lowercased filename contain a token of quarter q? -/
def quarterTokenMatch (filename : String) (q : Nat) : Bool :=
  (quarterTokens q).any (fun t => pyContains (pyLower filename) t)

theorem quarterTokenMatch_one (f : String) :
    quarterTokenMatch f 1 =
      (pyContains (pyLower f) "1st" || pyContains (pyLower f) "1 " ||
        pyContains (pyLower f) "first") := by
  simp [quarterTokenMatch, quarterTokens, Bool.or_assoc]

theorem quarterTokenMatch_two (f : String) :
    quarterTokenMatch f 2 =
      (pyContains (pyLower f) "2nd" || pyContains (pyLower f) "2 " ||
        pyContains (pyLower f) "second") := by
  simp [quarterTokenMatch, quarterTokens, Bool.or_assoc]

theorem quarterTokenMatch_three (f : String) :
    quarterTokenMatch f 3 =
      (pyContains (pyLower f) "3rd" || pyContains (pyLower f) "3 " ||
        pyContains (pyLower f) "third") := by
  simp [quarterTokenMatch, quarterTokens, Bool.or_assoc]

theorem quarterTokenMatch_four (f : String) :
    quarterTokenMatch f 4 =
      (pyContains (pyLower f) "4th" || pyContains (pyLower f) "4 " ||
        pyContains (pyLower f) "fourth") := by
  simp [quarterTokenMatch, quarterTokens, Bool.or_assoc]

theorem identify_eq_find (filename : String) :
    identify_quarter_from_filename filename =
      [1, 2, 3, 4].find? (quarterTokenMatch filename) := by
  simp only [identify_quarter_from_filename]
  rw [← quarterTokenMatch_one, ← quarterTokenMatch_two, ← quarterTokenMatch_three,
    ← quarterTokenMatch_four]
  by_cases m1 : quarterTokenMatch filename 1 <;>
    by_cases m2 : quarterTokenMatch filename 2 <;>
      by_cases m3 : quarterTokenMatch filename 3 <;>
        by_cases m4 : quarterTokenMatch filename 4 <;>
          simp [m1, m2, m3, m4, List.find?_cons]

/-- C10: the filename classifier tests quarters in ascending order with
token sets that include the bare digit-space token: it returns the first,
hence smallest, matching quarter, and a filename carrying only a bare
digit-space token is accepted. -/
theorem C10_quarter_from_filename_ascending_with_digit_tokens (filename : String) :
    (identify_quarter_from_filename filename =
      [1, 2, 3, 4].find? (quarterTokenMatch filename)) ∧
    (∀ q ∈ [1, 2, 3, 4], quarterTokenMatch filename q = true →
      identify_quarter_from_filename filename ≠ none) ∧
    (∀ q2, identify_quarter_from_filename filename = some q2 →
      ∀ q ∈ [1, 2, 3, 4], quarterTokenMatch filename q = true → q2 ≤ q) ∧
    (∀ q ∈ [1, 2, 3, 4], pyContains (pyLower filename) (toString q ++ " ") = true →
      quarterTokenMatch filename q = true) := by
  refine ⟨identify_eq_find filename, ?_, ?_, ?_⟩
  · intro q hq hm hnone
    rw [identify_eq_find filename] at hnone
    rw [List.find?_eq_none] at hnone
    exact hnone q hq hm
  · intro q2 hq2 q hq hm
    rw [identify_eq_find filename] at hq2
    fin_cases hq <;>
      by_cases m1 : quarterTokenMatch filename 1 <;>
        by_cases m2 : quarterTokenMatch filename 2 <;>
          by_cases m3 : quarterTokenMatch filename 3 <;>
            by_cases m4 : quarterTokenMatch filename 4 <;>
              simp_all [List.find?_cons] <;> omega
  · intro q hq hc
    fin_cases hq
    · rw [quarterTokenMatch_one]
      have h2 : pyContains (pyLower filename) "1 " = true := hc
      simp [h2]
    · rw [quarterTokenMatch_two]
      have h2 : pyContains (pyLower filename) "2 " = true := hc
      simp [h2]
    · rw [quarterTokenMatch_three]
      have h2 : pyContains (pyLower filename) "3 " = true := hc
      simp [h2]
    · rw [quarterTokenMatch_four]
      have h2 : pyContains (pyLower filename) "4 " = true := hc
      simp [h2]

/-- Witness for C10: a filename with a bare digit-space token and no
ordinal or word token is classified (not rejected). -/
theorem C10_witness :
    quarterTokenMatch "grades 3 summary.xlsx" 3 = true ∧
    identify_quarter_from_filename "grades 3 summary.xlsx" ≠ none :=
  ⟨by decide,
    (C10_quarter_from_filename_ascending_with_digit_tokens
      "grades 3 summary.xlsx").2.1 3 (by decide) (by decide)⟩

/-- The view of a worksheet used by the detector: cell values and how many
merged-cell ranges it carries. -/
structure XSheet where
  cellVal : Nat → Nat → Val
  mergedCount : Nat

/-- The view of a loaded workbook used by the detector. -/
structure XWorkbook where
  sheets : List XSheet

/-- The body of the subject_indicators loop (sf10_web_app.py lines 70-73):
a truthy string cell contributes its lowercased value. -/
def indicatorOfCell : Val → Option String
  | .str s => if s != "" then some (pyLower s) else none
  | _ => none

/-- The subject_indicators list of sf10_web_app.py lines 69-73: the
lowercased string values of cells (30,2), (31,2), (32,2) that are
non-empty strings. -/
def subjectIndicators (fs : XSheet) : List String :=
  [30, 31, 32].filterMap (fun r => indicatorOfCell (fs.cellVal r 2))

/-- is_sf10_file (sf10_web_app.py lines 40-89).  The argument is the
outcome of load_workbook(filepath); any exception while reading yields
false (lines 87-89).  The checks: at least 20 sheets; cell (9,5) of the
first sheet is a string that is non-empty after stripping; the
space-joined lowercased subject indicators contain language, reading or
math; more than 100 merged ranges on the first sheet. -/
def is_sf10_file (loaded : Except Unit XWorkbook) : Bool :=
  match loaded with
  | .error _ => false
  | .ok wb =>
    if wb.sheets.length < 20 then false
    else
      match wb.sheets.head? with
      | none => false
      | some first_sheet =>
        let last_name_ok : Bool :=
          match first_sheet.cellVal 9 5 with
          | .str s => pyStrip s != ""
          | _ => false
        if !last_name_ok then false
        else
          let joined := String.mk (joinWordsL ((subjectIndicators first_sheet).map String.toList))
          let has_subjects : Bool :=
            ["language", "reading", "math"].any (fun w => pyContains joined w)
          last_name_ok && has_subjects && decide (100 < first_sheet.mergedCount)

theorem prefix_drop_space_suffix {pat w X : List Char}
    (hsp : ∀ c ∈ pat, c ≠ ' ')
    (h : List.IsPrefix pat (w ++ ' ' :: X)) : List.IsPrefix pat w := by
  induction pat generalizing w with
  | nil => exact List.nil_prefix
  | cons p ps ih =>
    cases w with
    | nil =>
      rw [List.nil_append, List.cons_prefix_cons] at h
      exact absurd h.1 (hsp p (List.mem_cons_self p ps))
    | cons a w2 =>
      rw [List.cons_append, List.cons_prefix_cons] at h
      rw [List.cons_prefix_cons]
      exact ⟨h.1, ih (fun c hc => hsp c (List.mem_cons_of_mem p hc)) h.2⟩

theorem infix_append_space_iff {pat : List Char} (w X : List Char)
    (hne : pat ≠ []) (hsp : ∀ c ∈ pat, c ≠ ' ') :
    List.IsInfix pat (w ++ ' ' :: X) ↔ (List.IsInfix pat w ∨ List.IsInfix pat X) := by
  constructor
  · intro h
    induction w with
    | nil =>
      rw [List.nil_append, List.infix_cons_iff] at h
      rcases h with h | h
      · cases pat with
        | nil => exact absurd rfl hne
        | cons p ps =>
          rw [List.cons_prefix_cons] at h
          exact absurd h.1 (hsp p (List.mem_cons_self p ps))
      · exact Or.inr h
    | cons a w2 ih =>
      rw [List.cons_append, List.infix_cons_iff] at h
      rcases h with h | h
      · rw [← List.cons_append] at h
        exact Or.inl (prefix_drop_space_suffix hsp h).isInfix
      · rcases ih h with h2 | h2
        · exact Or.inl (List.infix_cons h2)
        · exact Or.inr h2
  · intro h
    rcases h with h | h
    · exact h.trans (by simpa using List.infix_append [] w (' ' :: X))
    · refine h.trans ⟨w ++ [' '], [], by simp⟩

theorem infix_joinWords_iff (ws : List (List Char)) (pat : List Char)
    (hne : pat ≠ []) (hsp : ∀ c ∈ pat, c ≠ ' ') :
    List.IsInfix pat (joinWordsL ws) ↔ ∃ w ∈ ws, List.IsInfix pat w := by
  induction ws with
  | nil =>
    show List.IsInfix pat [] ↔ _
    rw [List.infix_nil]
    simp [hne]
  | cons w ws ih =>
    cases ws with
    | nil =>
      show List.IsInfix pat w ↔ _
      simp
    | cons v ws2 =>
      show List.IsInfix pat (w ++ ' ' :: joinWordsL (v :: ws2)) ↔ _
      rw [infix_append_space_iff _ _ hne hsp, ih]
      simp

theorem contains_joined_iff (is : List String) (w : String)
    (hne : w.toList ≠ []) (hsp : ∀ c ∈ w.toList, c ≠ ' ') :
    pyContains (String.mk (joinWordsL (is.map String.toList))) w = true ↔
      ∃ i ∈ is, pyContains i w = true := by
  unfold pyContains
  rw [decide_eq_true_eq]
  have hmk : (String.mk (joinWordsL (is.map String.toList))).toList
      = joinWordsL (is.map String.toList) := rfl
  rw [hmk, infix_joinWords_iff _ _ hne hsp]
  constructor
  · rintro ⟨wl, hwl, h⟩
    rw [List.mem_map] at hwl
    obtain ⟨i, hi, rfl⟩ := hwl
    exact ⟨i, hi, by rw [decide_eq_true_eq]; exact h⟩
  · rintro ⟨i, hi, h⟩
    rw [decide_eq_true_eq] at h
    exact ⟨i.toList, List.mem_map.mpr ⟨i, hi, rfl⟩, h⟩

theorem indicator_mem_iff (fs : XSheet) (i : String) :
    i ∈ subjectIndicators fs ↔
      ∃ r ∈ ([30, 31, 32] : List Nat), ∃ t : String,
        fs.cellVal r 2 = Val.str t ∧ t ≠ "" ∧ pyLower t = i := by
  unfold subjectIndicators
  rw [List.mem_filterMap]
  constructor
  · rintro ⟨r, hr, hfr⟩
    refine ⟨r, hr, ?_⟩
    cases hv : fs.cellVal r 2 with
    | null => rw [hv] at hfr; exact absurd hfr (by simp [indicatorOfCell])
    | num n => rw [hv] at hfr; exact absurd hfr (by simp [indicatorOfCell])
    | str s =>
      rw [hv] at hfr
      by_cases hs : s = ""
      · rw [hs] at hfr; exact absurd hfr (by simp [indicatorOfCell])
      · refine ⟨s, rfl, hs, ?_⟩
        have hb : (s != "") = true := by
          rw [bne_iff_ne]; exact hs
        rw [indicatorOfCell, hb] at hfr
        simpa using hfr
  · rintro ⟨r, hr, t, ht, htne, hlow⟩
    refine ⟨r, hr, ?_⟩
    rw [ht]
    have hb : (t != "") = true := by rw [bne_iff_ne]; exact htne
    rw [indicatorOfCell, hb]
    simpa using hlow

theorem has_subjects_iff (fs : XSheet) :
    (["language", "reading", "math"].any (fun w =>
      pyContains (String.mk (joinWordsL ((subjectIndicators fs).map String.toList))) w))
        = true ↔
      ∃ r ∈ ([30, 31, 32] : List Nat), ∃ t : String, fs.cellVal r 2 = Val.str t ∧
        ∃ w ∈ (["language", "reading", "math"] : List String),
          pyContains (pyLower t) w = true := by
  have hpats : ∀ w ∈ (["language", "reading", "math"] : List String),
      w.toList ≠ [] ∧ ∀ c ∈ w.toList, c ≠ ' ' := by decide
  rw [List.any_eq_true]
  constructor
  · rintro ⟨w, hw, hc⟩
    obtain ⟨hne, hsp⟩ := hpats w hw
    obtain ⟨i, hi, hiw⟩ := (contains_joined_iff _ w hne hsp).mp hc
    obtain ⟨r, hr, t, ht, htne, hlow⟩ := (indicator_mem_iff fs i).mp hi
    exact ⟨r, hr, t, ht, w, hw, by rwa [hlow]⟩
  · rintro ⟨r, hr, t, ht, w, hw, hc⟩
    obtain ⟨hne, hsp⟩ := hpats w hw
    refine ⟨w, hw, (contains_joined_iff _ w hne hsp).mpr ⟨pyLower t, ?_, hc⟩⟩
    rw [indicator_mem_iff fs]
    have htne : t ≠ "" := by
      intro h0
      rw [h0] at hc
      fin_cases hw <;> exact absurd hc (by decide)
    exact ⟨r, hr, t, ht, htne, rfl⟩

theorem if_not_bool_and (b x y : Bool) :
    (if !b then false else (b && x && y)) = (b && x && y) := by
  cases b <;> simp

/-- C6 counterexample to the claim as stated: a workbook satisfying all
four conditions with the literal reading of condition 2 - cell (9,5) holds
the non-empty string consisting of one space - on which the detector
nevertheless returns false, because the code also strips the string. -/
def cexSheet : XSheet :=
  { cellVal := fun r c =>
      if r = 9 ∧ c = 5 then Val.str " "
      else if r = 30 ∧ c = 2 then Val.str "language" else Val.null
    mergedCount := 200 }

def cexWorkbook : XWorkbook := { sheets := List.replicate 20 cexSheet }

/-- C6 refuted as stated: this workbook has 20 sheets, a non-empty string
at the last-name coordinate (one space), a subject label containing
language, and more than 100 merged ranges - all four stated heuristics -
yet the detector returns false. -/
theorem C6_counterexample :
    is_sf10_file (Except.ok cexWorkbook) = false ∧
    20 ≤ cexWorkbook.sheets.length ∧
    cexWorkbook.sheets.head? = some cexSheet ∧
    cexSheet.cellVal 9 5 = Val.str " " ∧ (" " : String) ≠ "" ∧
    cexSheet.cellVal 30 2 = Val.str "language" ∧
    pyContains (pyLower "language") "language" = true ∧
    100 < cexSheet.mergedCount := by
  refine ⟨?_, by simp [cexWorkbook], rfl, rfl, by decide, rfl, by decide, by decide⟩
  rfl

/-- C6 amended: the detector returns true iff the workbook loads without
an exception And has at least 20 sheets And the first sheet holds at cell
(9,5) a string that is non-empty after stripping whitespace And one of the
cells (30,2), (31,2), (32,2) holds a string containing language, reading
or math case-insensitively And the first sheet has more than 100 merged
ranges; on a read exception the result is false. -/
theorem C6_amended_detector_characterization (loaded : Except Unit XWorkbook) :
    is_sf10_file loaded = true ↔
      ∃ wb : XWorkbook, loaded = Except.ok wb ∧ 20 ≤ wb.sheets.length ∧
        ∃ fs : XSheet, wb.sheets.head? = some fs ∧
          (∃ s : String, fs.cellVal 9 5 = Val.str s ∧ pyStrip s ≠ "") ∧
          (∃ r ∈ ([30, 31, 32] : List Nat), ∃ t : String,
            fs.cellVal r 2 = Val.str t ∧
            ∃ w ∈ (["language", "reading", "math"] : List String),
              pyContains (pyLower t) w = true) ∧
          100 < fs.mergedCount := by
  cases loaded with
  | error e => simp [is_sf10_file]
  | ok wb =>
    by_cases hlen : wb.sheets.length < 20
    · simp only [is_sf10_file, if_pos hlen]
      constructor
      · intro h; exact absurd h (by simp)
      · rintro ⟨wb2, heq, h20, _⟩
        injection heq with h2
        subst h2
        omega
    · cases hh : wb.sheets.head? with
      | none =>
        rw [List.head?_eq_none_iff] at hh
        rw [hh] at hlen
        simp at hlen
      | some fs =>
        have hcompute : is_sf10_file (Except.ok wb) =
            ((match fs.cellVal 9 5 with
              | Val.str s => pyStrip s != ""
              | _ => false) &&
            (["language", "reading", "math"].any (fun w =>
              pyContains (String.mk
                (joinWordsL ((subjectIndicators fs).map String.toList))) w)) &&
            decide (100 < fs.mergedCount)) := by
          simp only [is_sf10_file, if_neg hlen, hh]
          exact if_not_bool_and _ _ _
        rw [hcompute, Bool.and_eq_true, Bool.and_eq_true, decide_eq_true_eq]
        constructor
        · rintro ⟨⟨hln, hhs⟩, hmg⟩
          refine ⟨wb, rfl, by omega, fs, hh, ?_, (has_subjects_iff fs).mp hhs, hmg⟩
          cases hv : fs.cellVal 9 5 with
          | null => rw [hv] at hln; exact Bool.noConfusion hln
          | num n => rw [hv] at hln; exact Bool.noConfusion hln
          | str s =>
            rw [hv] at hln
            have hln2 : (pyStrip s != "") = true := hln
            exact ⟨s, rfl, bne_iff_ne.mp hln2⟩
        · rintro ⟨wb2, heq, h20, fs2, hh2, ⟨s, hv, hs⟩, hsub, hmg⟩
          injection heq with h2
          subst h2
          rw [hh] at hh2
          injection hh2 with h3
          subst h3
          refine ⟨⟨?_, (has_subjects_iff fs).mpr hsub⟩, hmg⟩
          rw [hv]
          show (pyStrip s != "") = true
          exact bne_iff_ne.mpr hs

theorem toNat_ofNat_valid (n : Nat) (h : Nat.isValidChar n) : (Char.ofNat n).toNat = n := by
  simp only [Char.ofNat, dif_pos h]
  simp [Char.ofNatAux, Char.toNat, UInt32.toNat]

theorem char_eq_iff_toNat (a b : Char) : a = b ↔ a.toNat = b.toNat := by
  constructor
  · intro h; rw [h]
  · intro h
    apply Char.ext
    exact UInt32.ext_iff.mpr h

theorem toNat_toUpper (c : Char) :
    (Char.toUpper c).toNat = if c.toNat ≥ 97 ∧ c.toNat ≤ 122 then c.toNat - 32 else c.toNat := by
  unfold Char.toUpper
  simp only []
  split
  · next h => exact toNat_ofNat_valid _ (by left; omega)
  · rfl

theorem toUpper_toUpper (c : Char) : Char.toUpper (Char.toUpper c) = Char.toUpper c := by
  rw [char_eq_iff_toNat, toNat_toUpper, toNat_toUpper]
  by_cases h : c.toNat ≥ 97 ∧ c.toNat ≤ 122
  · rw [if_pos h, if_neg (by omega)]
  · rw [if_neg h, if_neg h]

theorem toUpper_comma_iff (c : Char) : (Char.toUpper c = ',') ↔ (c = ',') := by
  rw [char_eq_iff_toNat, char_eq_iff_toNat, toNat_toUpper]
  have hc : (',' : Char).toNat = 44 := rfl
  rw [hc]
  split
  · next h => omega
  · exact Iff.rfl

theorem toUpper_space_iff (c : Char) : (Char.toUpper c = ' ') ↔ (c = ' ') := by
  rw [char_eq_iff_toNat, char_eq_iff_toNat, toNat_toUpper]
  have hc : (' ' : Char).toNat = 32 := rfl
  rw [hc]
  split
  · next h => omega
  · exact Iff.rfl

theorem isPySpace_iff (c : Char) :
    isPySpace c = true ↔
      (c.toNat = 32 ∨ c.toNat = 9 ∨ c.toNat = 10 ∨ c.toNat = 13 ∨
        c.toNat = 11 ∨ c.toNat = 12) := by
  have h1 : (' ' : Char).toNat = 32 := rfl
  have h2 : ('\t' : Char).toNat = 9 := rfl
  have h3 : ('\n' : Char).toNat = 10 := rfl
  have h4 : ('\r' : Char).toNat = 13 := rfl
  have h5 : (Char.ofNat 11).toNat = 11 := rfl
  have h6 : (Char.ofNat 12).toNat = 12 := rfl
  simp only [isPySpace, Bool.or_eq_true, decide_eq_true_eq]
  rw [char_eq_iff_toNat c ' ', char_eq_iff_toNat c '\t', char_eq_iff_toNat c '\n',
    char_eq_iff_toNat c '\r', char_eq_iff_toNat c (Char.ofNat 11),
    char_eq_iff_toNat c (Char.ofNat 12), h1, h2, h3, h4, h5, h6]
  tauto

theorem isPySpace_toUpper (c : Char) : isPySpace (Char.toUpper c) = isPySpace c := by
  have ht := toNat_toUpper c
  by_cases h : c.toNat ≥ 97 ∧ c.toNat ≤ 122
  · rw [if_pos h] at ht
    have l1 : isPySpace (Char.toUpper c) = false := by
      rw [Bool.eq_false_iff]
      intro hX
      rw [isPySpace_iff] at hX
      omega
    have l2 : isPySpace c = false := by
      rw [Bool.eq_false_iff]
      intro hX
      rw [isPySpace_iff] at hX
      omega
    rw [l1, l2]
  · rw [if_neg h] at ht
    rw [(char_eq_iff_toNat _ _).mpr ht]

theorem delSpaceComma_cons2 (c d : Char) (cs : List Char) :
    delSpaceComma (c :: d :: cs) =
      if c = ' ' ∧ d = ',' then ',' :: delSpaceComma cs
      else c :: delSpaceComma (d :: cs) := rfl

theorem delCommaSpace_cons2 (c d : Char) (cs : List Char) :
    delCommaSpace (c :: d :: cs) =
      if c = ',' ∧ d = ' ' then ',' :: delCommaSpace cs
      else c :: delCommaSpace (d :: cs) := rfl

theorem expandComma_cons (c : Char) (cs : List Char) :
    expandComma (c :: cs) =
      if c = ',' then ',' :: ' ' :: expandComma cs
      else c :: expandComma cs := rfl

/-- A word as produced by splitWsL: non-empty and whitespace-free. -/
def goodW (w : List Char) : Prop := w ≠ [] ∧ ∀ c ∈ w, isPySpace c = false

def goodWs (L : List (List Char)) : Prop := ∀ w ∈ L, goodW w

theorem consHead_good {c : Char} {L : List (List Char)}
    (hc : isPySpace c = false) (hL : goodWs L) : goodWs (consHead c L) := by
  cases L with
  | nil =>
    intro w hw
    rw [consHead] at hw
    rcases List.mem_singleton.mp hw with rfl
    exact ⟨List.cons_ne_nil c [], by
      intro x hx
      rcases List.mem_singleton.mp hx with rfl
      exact hc⟩
  | cons w ws =>
    intro w2 hw2
    rw [consHead] at hw2
    rcases List.mem_cons.mp hw2 with rfl | h2
    · refine ⟨List.cons_ne_nil c w, ?_⟩
      intro x hx
      rcases List.mem_cons.mp hx with rfl | hxw
      · exact hc
      · exact (hL w (List.mem_cons_self w ws)).2 x hxw
    · exact hL w2 (List.mem_cons_of_mem w h2)

theorem splitWsL_cons_nil (c : Char) :
    splitWsL [c] = if isPySpace c then [] else [[c]] := rfl

theorem splitWsL_cons_cons (c d : Char) (cs2 : List Char) :
    splitWsL (c :: d :: cs2) =
      if isPySpace c then splitWsL (d :: cs2)
      else if isPySpace d then [c] :: splitWsL (d :: cs2)
      else consHead c (splitWsL (d :: cs2)) := rfl

theorem splitWs_good (l : List Char) : goodWs (splitWsL l) := by
  induction l with
  | nil => intro w hw; exact absurd hw (List.not_mem_nil w)
  | cons c cs ih =>
    by_cases hc : isPySpace c = true
    · cases cs with
      | nil =>
        rw [splitWsL_cons_nil, if_pos hc]
        intro w hw
        exact absurd hw (List.not_mem_nil w)
      | cons d cs2 =>
        rw [splitWsL_cons_cons, if_pos hc]
        exact ih
    · rw [Bool.not_eq_true] at hc
      have hc2 : ¬(isPySpace c = true) := by rw [hc]; exact Bool.false_ne_true
      cases cs with
      | nil =>
        rw [splitWsL_cons_nil, if_neg hc2]
        intro w hw
        rcases List.mem_singleton.mp hw with rfl
        exact ⟨List.cons_ne_nil c [], by
          intro x hx
          rcases List.mem_singleton.mp hx with rfl
          exact hc⟩
      | cons d cs2 =>
        rw [splitWsL_cons_cons, if_neg hc2]
        by_cases hd : isPySpace d = true
        · rw [if_pos hd]
          intro w hw
          rcases List.mem_cons.mp hw with rfl | h2
          · exact ⟨List.cons_ne_nil c [], by
              intro x hx
              rcases List.mem_singleton.mp hx with rfl
              exact hc⟩
          · exact ih w h2
        · rw [if_neg hd]
          exact consHead_good hc ih

theorem space_not_pyspace_false (c : Char) (hc : isPySpace c = false) : c ≠ ' ' := by
  intro h
  rw [h] at hc
  exact absurd hc (by decide)

theorem delSpaceComma_word (w : List Char) (rest : List Char)
    (hw : ∀ c ∈ w, isPySpace c = false) :
    delSpaceComma (w ++ rest) = w ++ delSpaceComma rest := by
  induction w with
  | nil => rfl
  | cons c w2 ih =>
    have hc : c ≠ ' ' :=
      space_not_pyspace_false c (hw c (List.mem_cons_self c w2))
    cases w2 with
    | nil =>
      cases rest with
      | nil => rfl
      | cons d r2 =>
        show delSpaceComma (c :: d :: r2) = c :: delSpaceComma (d :: r2)
        rw [delSpaceComma_cons2, if_neg (fun h => hc h.1)]
    | cons c2 w3 =>
      show delSpaceComma (c :: c2 :: (w3 ++ rest)) = c :: (c2 :: w3 ++ delSpaceComma rest)
      rw [delSpaceComma_cons2, if_neg (fun h => hc h.1)]
      rw [show c2 :: (w3 ++ rest) = (c2 :: w3) ++ rest from rfl]
      rw [ih (fun x hx => hw x (List.mem_cons_of_mem c hx))]

theorem delSpaceComma_spacefree (w : List Char)
    (hw : ∀ c ∈ w, isPySpace c = false) : delSpaceComma w = w := by
  have h := delSpaceComma_word w [] hw
  rw [List.append_nil] at h
  rw [show delSpaceComma [] = ([] : List Char) from rfl, List.append_nil] at h
  exact h

/-- The separator left by the first replace: dropped when the next word
begins with a comma. -/
def sepDrop (v : List Char) : List Char := if v.head? = some ',' then [] else [' ']

/-- The joined words after the space-comma replace: the separator before a
comma-initial word is gone. -/
def interS1 : List (List Char) → List Char
  | [] => []
  | [w] => w
  | w :: v :: ws => w ++ (sepDrop v ++ interS1 (v :: ws))

theorem interS1_head (v : List Char) (ws : List (List Char)) (hv : v ≠ []) :
    (interS1 (v :: ws)).head? = v.head? := by
  cases ws with
  | nil => rfl
  | cons w2 ws2 =>
    show (v ++ (sepDrop w2 ++ interS1 (w2 :: ws2))).head? = v.head?
    cases v with
    | nil => exact absurd rfl hv
    | cons c v2 => rfl

theorem delSpaceComma_sep (ws : List (List Char)) :
    ∀ v : List Char, goodW v → goodWs ws →
    delSpaceComma (' ' :: joinWordsL (v :: ws)) = sepDrop v ++ interS1 (v :: ws) := by
  induction ws with
  | nil =>
    intro v hv _
    obtain ⟨hne, hsf⟩ := hv
    cases v with
    | nil => exact absurd rfl hne
    | cons c v2 =>
      show delSpaceComma (' ' :: c :: v2) = sepDrop (c :: v2) ++ interS1 [c :: v2]
      by_cases hc : c = ','
      · subst hc
        have hsep : sepDrop (',' :: v2) = [] := if_pos rfl
        rw [delSpaceComma_cons2, if_pos ⟨rfl, rfl⟩]
        rw [delSpaceComma_spacefree v2 (fun x hx => hsf x (List.mem_cons_of_mem ',' hx))]
        rw [hsep, List.nil_append]
        rfl
      · have hsep : sepDrop (c :: v2) = [' '] := by
          refine if_neg ?_
          intro h
          exact hc (Option.some.inj h)
        rw [delSpaceComma_cons2, if_neg (fun h => hc h.2)]
        rw [delSpaceComma_spacefree (c :: v2) hsf]
        rw [hsep]
        rfl
  | cons w2 ws2 ih =>
    intro v hv hws
    obtain ⟨hne, hsf⟩ := hv
    have hw2 : goodW w2 := hws w2 (List.mem_cons_self w2 ws2)
    have hws2 : goodWs ws2 := fun x hx => hws x (List.mem_cons_of_mem w2 hx)
    cases v with
    | nil => exact absurd rfl hne
    | cons c v2 =>
      by_cases hc : c = ','
      · subst hc
        have hsep : sepDrop (',' :: v2) = [] := if_pos rfl
        show delSpaceComma (' ' :: ',' :: (v2 ++ ' ' :: joinWordsL (w2 :: ws2))) = _
        rw [delSpaceComma_cons2, if_pos ⟨rfl, rfl⟩]
        rw [delSpaceComma_word v2 _ (fun x hx => hsf x (List.mem_cons_of_mem ',' hx))]
        rw [ih w2 hw2 hws2]
        rw [hsep, List.nil_append]
        show (',' :: v2) ++ (sepDrop w2 ++ interS1 (w2 :: ws2)) =
          interS1 ((',' :: v2) :: w2 :: ws2)
        rfl
      · have hsep : sepDrop (c :: v2) = [' '] := by
          refine if_neg ?_
          intro h
          exact hc (Option.some.inj h)
        show delSpaceComma (' ' :: c :: (v2 ++ ' ' :: joinWordsL (w2 :: ws2))) = _
        rw [delSpaceComma_cons2, if_neg (fun h => hc h.2)]
        rw [show c :: (v2 ++ ' ' :: joinWordsL (w2 :: ws2)) =
          (c :: v2) ++ (' ' :: joinWordsL (w2 :: ws2)) from rfl]
        rw [delSpaceComma_word (c :: v2) _ hsf]
        rw [ih w2 hw2 hws2]
        rw [hsep]
        rfl

theorem delSpaceComma_join (L : List (List Char)) (h : goodWs L) :
    delSpaceComma (joinWordsL L) = interS1 L := by
  cases L with
  | nil => rfl
  | cons w L2 =>
    cases L2 with
    | nil =>
      show delSpaceComma w = w
      exact delSpaceComma_spacefree w (h w (List.mem_cons_self w [])).2
    | cons v ws =>
      show delSpaceComma (w ++ ' ' :: joinWordsL (v :: ws)) = _
      rw [delSpaceComma_word w _ (h w (List.mem_cons_self w (v :: ws))).2]
      rw [delSpaceComma_sep ws v (h v (List.mem_cons_of_mem w (List.mem_cons_self v ws)))
        (fun x hx => h x (List.mem_cons_of_mem w (List.mem_cons_of_mem v hx)))]
      rfl

theorem delCommaSpace_word (w : List Char) (rest : List Char)
    (hw : ∀ c ∈ w, isPySpace c = false)
    (hcond : ¬(w.getLast? = some ',' ∧ rest.head? = some ' ')) :
    delCommaSpace (w ++ rest) = w ++ delCommaSpace rest := by
  induction w with
  | nil => rfl
  | cons c w2 ih =>
    cases w2 with
    | nil =>
      cases rest with
      | nil => rfl
      | cons d r2 =>
        show delCommaSpace (c :: d :: r2) = c :: delCommaSpace (d :: r2)
        rw [delCommaSpace_cons2]
        refine if_neg ?_
        intro h
        exact hcond ⟨by rw [h.1]; rfl, by rw [h.2]; rfl⟩
    | cons c2 w3 =>
      have hc2 : c2 ≠ ' ' :=
        space_not_pyspace_false c2
          (hw c2 (List.mem_cons_of_mem c (List.mem_cons_self c2 w3)))
      show delCommaSpace (c :: c2 :: (w3 ++ rest)) = c :: (c2 :: w3 ++ delCommaSpace rest)
      rw [delCommaSpace_cons2, if_neg (fun h => hc2 h.2)]
      rw [show c2 :: (w3 ++ rest) = (c2 :: w3) ++ rest from rfl]
      rw [ih (fun x hx => hw x (List.mem_cons_of_mem c hx))
        (by
          intro h
          refine hcond ⟨?_, h.2⟩
          rw [List.getLast?_cons_cons]
          exact h.1)]

theorem delCommaSpace_spacefree (w : List Char)
    (hw : ∀ c ∈ w, isPySpace c = false) : delCommaSpace w = w := by
  have h := delCommaSpace_word w [] hw (by
    intro h
    exact Option.noConfusion h.2)
  rw [List.append_nil] at h
  rw [show delCommaSpace [] = ([] : List Char) from rfl, List.append_nil] at h
  exact h

/-- The joined words with every comma-adjacent separator removed: the
combined effect of the two replaces of generate_sf10.py line 73. -/
def tightJoin : List (List Char) → List Char
  | [] => []
  | [w] => w
  | w :: v :: ws =>
    w ++ ((if w.getLast? = some ',' ∨ v.head? = some ',' then [] else [' ']) ++
      tightJoin (v :: ws))

theorem delCommaSpace_cons_space (X : List Char) :
    delCommaSpace (' ' :: X) = ' ' :: delCommaSpace X := by
  cases X with
  | nil => rfl
  | cons x X2 =>
    rw [delCommaSpace_cons2]
    exact if_neg (fun h => by exact absurd h.1 (by decide))

theorem delCommaSpace_interS1 (L : List (List Char)) (h : goodWs L) :
    delCommaSpace (interS1 L) = tightJoin L := by
  induction L with
  | nil => rfl
  | cons w L2 ih =>
    cases L2 with
    | nil =>
      show delCommaSpace w = w
      exact delCommaSpace_spacefree w (h w (List.mem_cons_self w [])).2
    | cons v ws =>
      have hw : goodW w := h w (List.mem_cons_self w (v :: ws))
      have hv : goodW v := h v (List.mem_cons_of_mem w (List.mem_cons_self v ws))
      have hrest : goodWs (v :: ws) := fun x hx => h x (List.mem_cons_of_mem w hx)
      have ihr := ih hrest
      show delCommaSpace (w ++ (sepDrop v ++ interS1 (v :: ws))) = _
      by_cases hvh : v.head? = some ','
      · have hsep : sepDrop v = [] := if_pos hvh
        rw [hsep, List.nil_append]
        rw [delCommaSpace_word w _ hw.2 (by
          intro hx
          rw [interS1_head v ws hv.1, hvh] at hx
          exact Option.noConfusion (hx.2) (fun h2 => by exact absurd h2 (by decide)))]
        rw [ihr]
        show _ = w ++ ((if w.getLast? = some ',' ∨ v.head? = some ',' then [] else [' ']) ++
          tightJoin (v :: ws))
        rw [if_pos (Or.inr hvh), List.nil_append]
      · have hsep : sepDrop v = [' '] := if_neg hvh
        rw [hsep]
        by_cases hwl : w.getLast? = some ','
        · rcases List.eq_nil_or_concat w with rfl | ⟨w2, cLast, hw2⟩
          · exact absurd hwl (by intro hx; exact Option.noConfusion hx)
          · rw [List.concat_eq_append] at hw2
            have hcl : cLast = ',' := by
              rw [hw2, List.getLast?_concat] at hwl
              exact Option.some.inj hwl
            subst hcl
            subst hw2
            rw [List.append_assoc]
            rw [show [','] ++ ([' '] ++ interS1 (v :: ws)) =
              ',' :: ' ' :: interS1 (v :: ws) from rfl]
            rw [delCommaSpace_word w2 _
              (fun x hx => hw.2 x (List.mem_append.mpr (Or.inl hx)))
              (by
                intro hx
                exact absurd hx.2 (by intro h2; exact Option.noConfusion (h2) (fun h3 => by exact absurd h3 (by decide))))]
            rw [delCommaSpace_cons2, if_pos ⟨rfl, rfl⟩]
            rw [ihr]
            show _ = (w2 ++ [',']) ++ ((if (w2 ++ [',']).getLast? = some ',' ∨
              v.head? = some ',' then [] else [' ']) ++ tightJoin (v :: ws))
            rw [if_pos (Or.inl (List.getLast?_concat w2))]
            simp
        · rw [delCommaSpace_word w _ hw.2 (fun hx => hwl hx.1)]
          rw [show ([' '] : List Char) ++ interS1 (v :: ws) =
            ' ' :: interS1 (v :: ws) from rfl]
          rw [delCommaSpace_cons_space, ihr]
          show _ = w ++ ((if w.getLast? = some ',' ∨ v.head? = some ',' then [] else [' ']) ++
            tightJoin (v :: ws))
          rw [if_neg (by
            intro hx
            rcases hx with hx | hx
            · exact hwl hx
            · exact hvh hx)]
          rfl

theorem head?_append_left (v w : List Char) (hv : v ≠ []) :
    (v ++ w).head? = v.head? := by
  cases v with
  | nil => exact absurd rfl hv
  | cons c v2 => rfl

theorem getLast?_append_right (w v : List Char) (hv : v ≠ []) :
    (w ++ v).getLast? = v.getLast? := by
  rcases List.eq_nil_or_concat v with rfl | ⟨v2, b, hb⟩
  · exact absurd rfl hv
  · rw [List.concat_eq_append] at hb
    subst hb
    rw [← List.append_assoc, List.getLast?_concat, List.getLast?_concat]

/-- Adjacent words that lose their separator in the tight join are merged
into one group. -/
def glue : List (List Char) → List (List Char)
  | [] => []
  | [w] => [w]
  | w :: v :: ws =>
    if w.getLast? = some ',' ∨ v.head? = some ',' then glue ((w ++ v) :: ws)
    else w :: glue (v :: ws)
termination_by L => L.length

theorem glue_nil : glue [] = [] := by simp only [glue]

theorem glue_one (w : List Char) : glue [w] = [w] := by simp only [glue]

theorem glue_cons2 (w v : List Char) (ws : List (List Char)) :
    glue (w :: v :: ws) =
      if w.getLast? = some ',' ∨ v.head? = some ',' then glue ((w ++ v) :: ws)
      else w :: glue (v :: ws) := by
  simp only [glue]

/-- Adjacent word groups of a glued list never lose their separator. -/
def gluedAdj : List (List Char) → Prop
  | [] => True
  | [_] => True
  | w :: v :: ws => ¬(w.getLast? = some ',' ∨ v.head? = some ',') ∧ gluedAdj (v :: ws)

theorem goodW_append {w v : List Char} (hw : goodW w) (hv : goodW v) :
    goodW (w ++ v) := by
  refine ⟨?_, ?_⟩
  · intro h
    rcases List.append_eq_nil.mp h with ⟨h1, _⟩
    exact hw.1 h1
  · intro c hc
    rcases List.mem_append.mp hc with h | h
    · exact hw.2 c h
    · exact hv.2 c h

theorem glue_head_aux : ∀ (n : Nat) (v : List Char) (ws : List (List Char)),
    ws.length ≤ n → v ≠ [] →
    ∃ v2 ws2, glue (v :: ws) = v2 :: ws2 ∧ v2.head? = v.head? := by
  intro n
  induction n with
  | zero =>
    intro v ws hlen _
    have h0 : ws = [] := List.length_eq_zero.mp (Nat.le_zero.mp hlen)
    subst h0
    exact ⟨v, [], glue_one v, rfl⟩
  | succ n ihn =>
    intro v ws hlen hv
    cases ws with
    | nil => exact ⟨v, [], glue_one v, rfl⟩
    | cons w2 ws2 =>
      rw [glue_cons2]
      by_cases hg : v.getLast? = some ',' ∨ w2.head? = some ','
      · rw [if_pos hg]
        obtain ⟨v2, ws3, hgl, hh⟩ := ihn (v ++ w2) ws2
          (by
            have := hlen
            simp only [List.length_cons] at this ⊢
            omega)
          (by
            intro h
            exact hv (List.append_eq_nil.mp h).1)
        exact ⟨v2, ws3, hgl, by rw [hh, head?_append_left v w2 hv]⟩
      · rw [if_neg hg]
        exact ⟨v, glue (w2 :: ws2), rfl, rfl⟩

theorem glue_head (v : List Char) (ws : List (List Char)) (hv : v ≠ []) :
    ∃ v2 ws2, glue (v :: ws) = v2 :: ws2 ∧ v2.head? = v.head? :=
  glue_head_aux ws.length v ws Nat.le.refl hv

theorem glue_glued_aux : ∀ (n : Nat) (L : List (List Char)),
    L.length ≤ n → goodWs L → gluedAdj (glue L) ∧ goodWs (glue L) := by
  intro n
  induction n with
  | zero =>
    intro L hlen _
    have h0 : L = [] := List.length_eq_zero.mp (Nat.le_zero.mp hlen)
    subst h0
    rw [glue_nil]
    exact ⟨trivial, fun w hw => absurd hw (List.not_mem_nil w)⟩
  | succ n ihn =>
    intro L hlen hgood
    match L with
    | [] =>
      rw [glue_nil]
      exact ⟨trivial, fun w hw => absurd hw (List.not_mem_nil w)⟩
    | [w] =>
      rw [glue_one]
      exact ⟨trivial, hgood⟩
    | w :: v :: ws =>
      have hw : goodW w := hgood w (List.mem_cons_self w (v :: ws))
      have hv : goodW v := hgood v (List.mem_cons_of_mem w (List.mem_cons_self v ws))
      rw [glue_cons2]
      by_cases hg : w.getLast? = some ',' ∨ v.head? = some ','
      · rw [if_pos hg]
        refine ihn ((w ++ v) :: ws) (by
          simp only [List.length_cons] at hlen ⊢
          omega) ?_
        intro x hx
        rcases List.mem_cons.mp hx with rfl | h2
        · exact goodW_append hw hv
        · exact hgood x (List.mem_cons_of_mem w (List.mem_cons_of_mem v h2))
      · rw [if_neg hg]
        have hrest : goodWs (v :: ws) :=
          fun x hx => hgood x (List.mem_cons_of_mem w hx)
        have hih := ihn (v :: ws) (by
          simp only [List.length_cons] at hlen ⊢
          omega) hrest
        obtain ⟨v2, ws2, hgl, hh⟩ := glue_head v ws hv.1
        constructor
        · rw [hgl]
          show ¬(w.getLast? = some ',' ∨ v2.head? = some ',') ∧ gluedAdj (v2 :: ws2)
          constructor
          · rw [hh]
            exact hg
          · rw [hgl] at hih
            exact hih.1
        · intro x hx
          rcases List.mem_cons.mp hx with rfl | h2
          · exact hw
          · exact hih.2 x h2

theorem tightJoin_merge (w v : List Char) (ws : List (List Char)) (hv : v ≠ []) :
    tightJoin ((w ++ v) :: ws) = w ++ tightJoin (v :: ws) := by
  cases ws with
  | nil => rfl
  | cons x ws2 =>
    show (w ++ v) ++ ((if (w ++ v).getLast? = some ',' ∨ x.head? = some ',' then []
      else [' ']) ++ tightJoin (x :: ws2)) = _
    rw [getLast?_append_right w v hv]
    rw [List.append_assoc]
    rfl

theorem join_ne_nil (M : List (List Char)) (hM : goodWs M) (hne : M ≠ []) :
    joinWordsL M ≠ [] := by
  cases M with
  | nil => exact absurd rfl hne
  | cons w M2 =>
    have hw : w ≠ [] := (hM w (List.mem_cons_self w M2)).1
    cases M2 with
    | nil => exact hw
    | cons v M3 =>
      show w ++ ' ' :: joinWordsL (v :: M3) ≠ []
      intro h
      exact hw (List.append_eq_nil.mp h).1

theorem tightJoin_eq_glue_aux : ∀ (n : Nat) (L : List (List Char)),
    L.length ≤ n → goodWs L → tightJoin L = joinWordsL (glue L) := by
  intro n
  induction n with
  | zero =>
    intro L hlen _
    have h0 : L = [] := List.length_eq_zero.mp (Nat.le_zero.mp hlen)
    subst h0
    rw [glue_nil]
    rfl
  | succ n ihn =>
    intro L hlen hgood
    match L with
    | [] => rw [glue_nil]; rfl
    | [w] => rw [glue_one]; rfl
    | w :: v :: ws =>
      have hw : goodW w := hgood w (List.mem_cons_self w (v :: ws))
      have hv : goodW v := hgood v (List.mem_cons_of_mem w (List.mem_cons_self v ws))
      have hrest : goodWs (v :: ws) :=
        fun x hx => hgood x (List.mem_cons_of_mem w hx)
      rw [glue_cons2]
      by_cases hg : w.getLast? = some ',' ∨ v.head? = some ','
      · rw [if_pos hg]
        rw [← ihn ((w ++ v) :: ws) (by
          simp only [List.length_cons] at hlen ⊢
          omega) (by
            intro x hx
            rcases List.mem_cons.mp hx with rfl | h2
            · exact goodW_append hw hv
            · exact hgood x (List.mem_cons_of_mem w (List.mem_cons_of_mem v h2)))]
        rw [tightJoin_merge w v ws hv.1]
        show w ++ ((if w.getLast? = some ',' ∨ v.head? = some ',' then [] else [' ']) ++
          tightJoin (v :: ws)) = _
        rw [if_pos hg, List.nil_append]
      · rw [if_neg hg]
        have hih := ihn (v :: ws) (by
          simp only [List.length_cons] at hlen ⊢
          omega) hrest
        obtain ⟨v2, ws2, hgl, _⟩ := glue_head v ws hv.1
        show w ++ ((if w.getLast? = some ',' ∨ v.head? = some ',' then [] else [' ']) ++
          tightJoin (v :: ws)) = _
        rw [if_neg hg, hih, hgl]
        show w ++ (' ' :: joinWordsL (v2 :: ws2)) = joinWordsL (w :: v2 :: ws2)
        rfl

theorem tightJoin_eq_glue (L : List (List Char)) (h : goodWs L) :
    tightJoin L = joinWordsL (glue L) :=
  tightJoin_eq_glue_aux L.length L Nat.le.refl h

/-- The comma-attached pieces of a word: the word split after every comma,
with a comma not preceded by a word character standing alone. -/
def kOfWord : List Char → List (List Char)
  | [] => []
  | c :: cs => if c = ',' then [','] :: kOfWord cs else consHead c (kOfWord cs)

/-- A piece shape: whitespace-free, non-empty, commas only in last position. -/
def kShapedP : List Char → Prop
  | [] => False
  | [c] => isPySpace c = false
  | c :: rest => isPySpace c = false ∧ c ≠ ',' ∧ kShapedP rest

/-- All pieces of all words, in order. -/
def piecesOf : List (List Char) → List (List Char)
  | [] => []
  | w :: ws => kOfWord w ++ piecesOf ws

def flattenW : List (List Char) → List Char
  | [] => []
  | p :: ps => p ++ flattenW ps

/-- Every piece before the last ends with a comma. -/
def innerEndComma : List (List Char) → Prop
  | [] => True
  | [_] => True
  | p :: q :: ps => p.getLast? = some ',' ∧ innerEndComma (q :: ps)

theorem consHead_ne_nil (c : Char) (L : List (List Char)) : consHead c L ≠ [] := by
  cases L <;> simp [consHead]

theorem kOfWord_ne_nil (w : List Char) (hw : w ≠ []) : kOfWord w ≠ [] := by
  cases w with
  | nil => exact absurd rfl hw
  | cons c cs =>
    show (if c = ',' then [','] :: kOfWord cs else consHead c (kOfWord cs)) ≠ []
    by_cases hc : c = ','
    · rw [if_pos hc]; exact List.cons_ne_nil _ _
    · rw [if_neg hc]; exact consHead_ne_nil c (kOfWord cs)

theorem flattenW_consHead (c : Char) (K : List (List Char)) :
    flattenW (consHead c K) = c :: flattenW K := by
  cases K with
  | nil => rfl
  | cons p ps => rfl

theorem kOfWord_flatten (w : List Char) : flattenW (kOfWord w) = w := by
  induction w with
  | nil => rfl
  | cons c cs ih =>
    show flattenW (if c = ',' then [','] :: kOfWord cs else consHead c (kOfWord cs)) = c :: cs
    by_cases hc : c = ','
    · rw [if_pos hc, hc]
      show ',' :: flattenW (kOfWord cs) = ',' :: cs
      rw [ih]
    · rw [if_neg hc, flattenW_consHead, ih]

theorem kOfWord_head (w : List Char) (hw : w ≠ []) :
    ∃ p ps, kOfWord w = p :: ps ∧ p.head? = w.head? := by
  cases w with
  | nil => exact absurd rfl hw
  | cons c cs =>
    show ∃ p ps, (if c = ',' then [','] :: kOfWord cs else consHead c (kOfWord cs)) = p :: ps ∧ _
    by_cases hc : c = ','
    · subst hc
      exact ⟨[','], kOfWord cs, if_pos rfl, rfl⟩
    · rw [if_neg hc]
      cases hK : kOfWord cs with
      | nil => exact ⟨[c], [], rfl, rfl⟩
      | cons p ps => exact ⟨c :: p, ps, rfl, rfl⟩

theorem kShapedP_ne_nil {p : List Char} (h : kShapedP p) : p ≠ [] := by
  cases p with
  | nil => exact absurd h (by intro h2; exact h2)
  | cons c rest => exact List.cons_ne_nil c rest

theorem kShapedP_cons2 (c d : Char) (rest : List Char) :
    kShapedP (c :: d :: rest) ↔
      (isPySpace c = false ∧ c ≠ ',' ∧ kShapedP (d :: rest)) := Iff.rfl

theorem kOfWord_inner (w : List Char) : innerEndComma (kOfWord w) := by
  induction w with
  | nil => trivial
  | cons c cs ih =>
    show innerEndComma (if c = ',' then [','] :: kOfWord cs else consHead c (kOfWord cs))
    by_cases hc : c = ','
    · rw [if_pos hc]
      cases hK : kOfWord cs with
      | nil => trivial
      | cons p ps =>
        rw [hK] at ih
        exact ⟨rfl, ih⟩
    · rw [if_neg hc]
      cases hK : kOfWord cs with
      | nil => trivial
      | cons p ps =>
        rw [hK] at ih
        show innerEndComma ((c :: p) :: ps)
        cases ps with
        | nil => trivial
        | cons q ps2 =>
          obtain ⟨hp, hrest⟩ := ih
          have hpne : p ≠ [] := by
            intro h0
            rw [h0] at hp
            exact Option.noConfusion hp
          refine ⟨?_, hrest⟩
          cases p with
          | nil => exact absurd rfl hpne
          | cons x p2 =>
            rw [List.getLast?_cons_cons]
            exact hp

theorem kOfWord_kShaped (w : List Char) (hw : ∀ c ∈ w, isPySpace c = false) :
    ∀ p ∈ kOfWord w, kShapedP p := by
  induction w with
  | nil => intro p hp; exact absurd hp (List.not_mem_nil p)
  | cons c cs ih =>
    have hc : isPySpace c = false := hw c (List.mem_cons_self c cs)
    have hcs : ∀ x ∈ cs, isPySpace x = false :=
      fun x hx => hw x (List.mem_cons_of_mem c hx)
    intro p hp
    rw [show kOfWord (c :: cs) =
      (if c = ',' then [','] :: kOfWord cs else consHead c (kOfWord cs)) from rfl] at hp
    by_cases hcc : c = ','
    · rw [if_pos hcc] at hp
      rcases List.mem_cons.mp hp with rfl | h2
      · show kShapedP [',']
        exact (by decide : isPySpace ',' = false)
      · exact ih hcs p h2
    · rw [if_neg hcc] at hp
      cases hK : kOfWord cs with
      | nil =>
        rw [hK] at hp
        rcases List.mem_singleton.mp (by rw [consHead] at hp; exact hp) with rfl
        exact hc
      | cons q ps =>
        rw [hK, consHead] at hp
        rcases List.mem_cons.mp hp with rfl | h2
        · have hq : kShapedP q := ih hcs q (by rw [hK]; exact List.mem_cons_self q ps)
          have hqne : q ≠ [] := kShapedP_ne_nil hq
          cases q with
          | nil => exact absurd rfl hqne
          | cons x q2 =>
            rw [kShapedP_cons2]
            exact ⟨hc, hcc, hq⟩
        · exact ih hcs p (by rw [hK]; exact List.mem_cons_of_mem q h2)

theorem glue_chain_aux : ∀ (n : Nat) (A rest : List (List Char)),
    A.length ≤ n → A ≠ [] → (∀ p ∈ A, p ≠ []) → innerEndComma A →
    glue (A ++ rest) = glue (flattenW A :: rest) := by
  intro n
  induction n with
  | zero =>
    intro A rest hlen hne _ _
    have h0 : A = [] := List.length_eq_zero.mp (Nat.le_zero.mp hlen)
    exact absurd h0 hne
  | succ n ihn =>
    intro A rest hlen hne hpne hinner
    match A with
    | [p] =>
      show glue (p :: rest) = glue ((p ++ flattenW []) :: rest)
      rw [show flattenW ([] : List (List Char)) = [] from rfl, List.append_nil]
    | p :: q :: A2 =>
      have hpq : p.getLast? = some ',' := hinner.1
      show glue (p :: q :: (A2 ++ rest)) = _
      rw [glue_cons2, if_pos (Or.inl hpq)]
      rw [show ((p ++ q) :: (A2 ++ rest)) = ((p ++ q) :: A2) ++ rest from rfl]
      rw [ihn ((p ++ q) :: A2) rest
        (by simp only [List.length_cons] at hlen ⊢; omega)
        (List.cons_ne_nil _ _)
        (by
          intro x hx
          rcases List.mem_cons.mp hx with rfl | h2
          · intro h0
            exact hpne q (List.mem_cons_of_mem p (List.mem_cons_self q A2))
              (List.append_eq_nil.mp h0).2
          · exact hpne x (List.mem_cons_of_mem p (List.mem_cons_of_mem q h2)))
        (by
          have hqne : q ≠ [] :=
            hpne q (List.mem_cons_of_mem p (List.mem_cons_self q A2))
          cases A2 with
          | nil => trivial
          | cons r A3 =>
            have hq : q.getLast? = some ',' := hinner.2.1
            exact ⟨by rw [getLast?_append_right p q hqne]; exact hq, hinner.2.2⟩)]
      show glue ((p ++ q ++ flattenW A2) :: rest) = glue ((p ++ (q ++ flattenW A2)) :: rest)
      rw [List.append_assoc]

theorem glue_pieces (G : List (List Char)) (hadj : gluedAdj G) (hgood : goodWs G) :
    glue (piecesOf G) = G := by
  induction G with
  | nil => exact glue_nil
  | cons g G2 ih =>
    have hg : goodW g := hgood g (List.mem_cons_self g G2)
    have hpieces : ∀ p ∈ kOfWord g, p ≠ [] :=
      fun p hp => kShapedP_ne_nil (kOfWord_kShaped g hg.2 p hp)
    have hkne : kOfWord g ≠ [] := kOfWord_ne_nil g hg.1
    cases G2 with
    | nil =>
      show glue (kOfWord g ++ []) = [g]
      rw [glue_chain_aux (kOfWord g).length (kOfWord g) [] Nat.le.refl hkne hpieces
        (kOfWord_inner g)]
      rw [kOfWord_flatten]
      exact glue_one g
    | cons g2 G3 =>
      have hg2 : goodW g2 := hgood g2 (List.mem_cons_of_mem g (List.mem_cons_self g2 G3))
      have hrest : goodWs (g2 :: G3) := fun x hx => hgood x (List.mem_cons_of_mem g hx)
      show glue (kOfWord g ++ piecesOf (g2 :: G3)) = g :: g2 :: G3
      rw [glue_chain_aux (kOfWord g).length (kOfWord g) _ Nat.le.refl hkne hpieces
        (kOfWord_inner g)]
      rw [kOfWord_flatten]
      obtain ⟨p, ps, hk, hh⟩ := kOfWord_head g2 hg2.1
      show glue (g :: (kOfWord g2 ++ piecesOf G3)) = _
      rw [hk]
      show glue (g :: p :: (ps ++ piecesOf G3)) = _
      rw [glue_cons2, if_neg (by
        intro hx
        rcases hx with hx | hx
        · exact hadj.1 (Or.inl hx)
        · rw [hh] at hx
          exact hadj.1 (Or.inr hx))]
      have this0 : glue (piecesOf (g2 :: G3)) = g2 :: G3 := ih hadj.2 hrest
      have this1 : piecesOf (g2 :: G3) = p :: (ps ++ piecesOf G3) := by
        show kOfWord g2 ++ piecesOf G3 = _
        rw [hk]
        rfl
      rw [this1] at this0
      rw [this0]

theorem expandComma_append (a b : List Char) :
    expandComma (a ++ b) = expandComma a ++ expandComma b := by
  induction a with
  | nil => rfl
  | cons c a2 ih =>
    show expandComma (c :: (a2 ++ b)) = expandComma (c :: a2) ++ expandComma b
    rw [expandComma_cons, expandComma_cons]
    by_cases hc : c = ','
    · rw [if_pos hc, if_pos hc, ih]
      rfl
    · rw [if_neg hc, if_neg hc, ih]
      rfl

theorem join_consHead (c : Char) (w : List Char) (ks : List (List Char)) :
    joinWordsL ((c :: w) :: ks) = c :: joinWordsL (w :: ks) := by
  cases ks with
  | nil => rfl
  | cons k ks2 => rfl

/-- The trailing space left by the comma expansion when the text ends in a
comma. -/
def commaTrail (w : List Char) : List Char :=
  if w.getLast? = some ',' then [' '] else []

theorem expandComma_word (w : List Char) :
    expandComma w = joinWordsL (kOfWord w) ++ commaTrail w := by
  induction w with
  | nil => rfl
  | cons c cs ih =>
    rw [expandComma_cons]
    by_cases hc : c = ','
    · subst hc
      rw [if_pos rfl]
      cases cs with
      | nil => rfl
      | cons d cs2 =>
        rw [ih]
        have hK : kOfWord (d :: cs2) ≠ [] := kOfWord_ne_nil _ (List.cons_ne_nil d cs2)
        cases hk : kOfWord (d :: cs2) with
        | nil => exact absurd hk hK
        | cons p ps =>
          show ',' :: ' ' :: (joinWordsL (p :: ps) ++ commaTrail (d :: cs2)) =
            joinWordsL (kOfWord (',' :: d :: cs2)) ++ commaTrail (',' :: d :: cs2)
          rw [show kOfWord (',' :: d :: cs2) = [','] :: kOfWord (d :: cs2) from if_pos rfl]
          rw [hk]
          rw [show commaTrail (',' :: d :: cs2) = commaTrail (d :: cs2) from by
            rw [commaTrail, commaTrail, List.getLast?_cons_cons]]
          rfl
    · rw [if_neg hc]
      cases cs with
      | nil =>
        show [c] = joinWordsL (kOfWord [c]) ++ commaTrail [c]
        rw [show kOfWord [c] = consHead c (kOfWord []) from if_neg hc]
        rw [show consHead c (kOfWord []) = [[c]] from rfl]
        rw [show commaTrail [c] = [] from by
          rw [commaTrail]
          refine if_neg ?_
          intro h
          exact hc (Option.some.inj h)]
        rfl
      | cons d cs2 =>
        rw [ih]
        have hK : kOfWord (d :: cs2) ≠ [] := kOfWord_ne_nil _ (List.cons_ne_nil d cs2)
        cases hk : kOfWord (d :: cs2) with
        | nil => exact absurd hk hK
        | cons p ps =>
          show c :: (joinWordsL (p :: ps) ++ commaTrail (d :: cs2)) =
            joinWordsL (kOfWord (c :: d :: cs2)) ++ commaTrail (c :: d :: cs2)
          rw [show kOfWord (c :: d :: cs2) = consHead c (kOfWord (d :: cs2)) from if_neg hc]
          rw [hk]
          rw [show consHead c (p :: ps) = (c :: p) :: ps from rfl]
          rw [join_consHead]
          rw [show commaTrail (c :: d :: cs2) = commaTrail (d :: cs2) from by
            rw [commaTrail, commaTrail, List.getLast?_cons_cons]]
          rfl

theorem joinWordsL_cons_ne (w : List Char) (L : List (List Char)) (hL : L ≠ []) :
    joinWordsL (w :: L) = w ++ ' ' :: joinWordsL L := by
  cases L with
  | nil => exact absurd rfl hL
  | cons v L2 => rfl

theorem joinWordsL_append (A B : List (List Char)) (hA : A ≠ []) (hB : B ≠ []) :
    joinWordsL (A ++ B) = joinWordsL A ++ ' ' :: joinWordsL B := by
  induction A with
  | nil => exact absurd rfl hA
  | cons w A2 ih =>
    cases A2 with
    | nil =>
      show joinWordsL (w :: B) = joinWordsL [w] ++ ' ' :: joinWordsL B
      rw [joinWordsL_cons_ne w B hB]
      rfl
    | cons v A3 =>
      show joinWordsL (w :: ((v :: A3) ++ B)) = _
      rw [joinWordsL_cons_ne w _ (by simp)]
      rw [ih (List.cons_ne_nil v A3)]
      rw [joinWordsL_cons_ne w (v :: A3) (List.cons_ne_nil v A3)]
      simp [List.append_assoc]

theorem piecesOf_ne_nil (g : List Char) (G : List (List Char)) (hg : g ≠ []) :
    piecesOf (g :: G) ≠ [] := by
  show kOfWord g ++ piecesOf G ≠ []
  intro h
  exact kOfWord_ne_nil g hg (List.append_eq_nil.mp h).1

theorem expandComma_join (G : List (List Char)) (hadj : gluedAdj G) (hgood : goodWs G) :
    expandComma (joinWordsL G) =
      joinWordsL (piecesOf G) ++ commaTrail ((G.getLast?).getD []) := by
  induction G with
  | nil => rfl
  | cons g G2 ih =>
    have hg : goodW g := hgood g (List.mem_cons_self g G2)
    cases G2 with
    | nil =>
      show expandComma (joinWordsL [g]) = _
      rw [show joinWordsL [g] = g from rfl, expandComma_word g]
      rw [show piecesOf [g] = kOfWord g ++ [] from rfl, List.append_nil]
      rfl
    | cons g2 G3 =>
      have hg2 : goodW g2 := hgood g2 (List.mem_cons_of_mem g (List.mem_cons_self g2 G3))
      have hrest : goodWs (g2 :: G3) := fun x hx => hgood x (List.mem_cons_of_mem g hx)
      have ihr := ih hadj.2 hrest
      rw [joinWordsL_cons_ne g _ (List.cons_ne_nil g2 G3)]
      rw [expandComma_append, expandComma_cons, if_neg (by decide : ¬(' ' = ','))]
      rw [expandComma_word g, ihr]
      rw [show commaTrail g = [] from by
        rw [commaTrail]
        refine if_neg ?_
        intro h
        exact hadj.1 (Or.inl h)]
      rw [List.append_nil]
      rw [show piecesOf (g :: g2 :: G3) = kOfWord g ++ piecesOf (g2 :: G3) from rfl]
      rw [joinWordsL_append (kOfWord g) (piecesOf (g2 :: G3))
        (kOfWord_ne_nil g hg.1) (piecesOf_ne_nil g2 G3 hg2.1)]
      rw [show ((g :: g2 :: G3).getLast?).getD [] = ((g2 :: G3).getLast?).getD [] from by
        rw [List.getLast?_cons_cons]]
      simp [List.append_assoc]

theorem dropWhile_head_id (x : List Char)
    (hh : ∀ c, x.head? = some c → isPySpace c = false) :
    x.dropWhile isPySpace = x := by
  cases x with
  | nil => rfl
  | cons c x2 =>
    rw [List.dropWhile_cons]
    rw [hh c rfl]
    simp

theorem pyStripL_id (x : List Char)
    (hh : ∀ c, x.head? = some c → isPySpace c = false)
    (hl : ∀ c, x.getLast? = some c → isPySpace c = false) :
    pyStripL x = x := by
  unfold pyStripL
  rw [dropWhile_head_id x hh]
  rw [dropWhile_head_id x.reverse (by
    intro c hc
    rw [List.head?_reverse] at hc
    exact hl c hc)]
  exact List.reverse_reverse x

theorem pyStripL_append_space (x : List Char)
    (hh : ∀ c, x.head? = some c → isPySpace c = false)
    (hl : ∀ c, x.getLast? = some c → isPySpace c = false) :
    pyStripL (x ++ [' ']) = x := by
  cases x with
  | nil => rfl
  | cons c x2 =>
    unfold pyStripL
    rw [dropWhile_head_id ((c :: x2) ++ [' ']) (by
      intro d hd
      rw [show ((c :: x2) ++ [' ']).head? = some c from rfl] at hd
      exact hh d (by rw [Option.some.inj hd]; rfl))]
    rw [show ((c :: x2) ++ [' ']).reverse = ' ' :: (c :: x2).reverse from by
      rw [List.reverse_append]
      rfl]
    rw [List.dropWhile_cons]
    rw [show isPySpace ' ' = true from rfl]
    simp only [if_true]
    rw [dropWhile_head_id (c :: x2).reverse (by
      intro d hd
      rw [List.head?_reverse] at hd
      exact hl d hd)]
    exact List.reverse_reverse (c :: x2)

theorem join_head_nospace (M : List (List Char)) (hM : goodWs M) :
    ∀ c, (joinWordsL M).head? = some c → isPySpace c = false := by
  intro c hc
  cases M with
  | nil => exact Option.noConfusion hc
  | cons w M2 =>
    have hw : goodW w := hM w (List.mem_cons_self w M2)
    have hhead : (joinWordsL (w :: M2)).head? = w.head? := by
      cases M2 with
      | nil => rfl
      | cons v M3 =>
        rw [joinWordsL_cons_ne w _ (List.cons_ne_nil v M3)]
        exact head?_append_left w _ hw.1
    rw [hhead] at hc
    have : c ∈ w := by
      cases w with
      | nil => exact Option.noConfusion hc
      | cons d w2 =>
        rw [show (d :: w2).head? = some d from rfl] at hc
        rw [← Option.some.inj hc]
        exact List.mem_cons_self d w2
    exact hw.2 c this

theorem join_last_nospace (M : List (List Char)) (hM : goodWs M) :
    ∀ c, (joinWordsL M).getLast? = some c → isPySpace c = false := by
  induction M with
  | nil => intro c hc; exact Option.noConfusion hc
  | cons w M2 ih =>
    intro c hc
    have hw : goodW w := hM w (List.mem_cons_self w M2)
    have hM2 : goodWs M2 := fun x hx => hM x (List.mem_cons_of_mem w hx)
    cases M2 with
    | nil =>
      have hc2 : w.getLast? = some c := hc
      have : c ∈ w := by
        rcases List.eq_nil_or_concat w with rfl | ⟨w2, b, hb⟩
        · exact Option.noConfusion hc2
        · rw [List.concat_eq_append] at hb
          subst hb
          rw [List.getLast?_concat] at hc2
          rw [← Option.some.inj hc2]
          exact List.mem_append.mpr (Or.inr (List.mem_singleton.mpr rfl))
      exact hw.2 c this
    | cons v M3 =>
      rw [joinWordsL_cons_ne w _ (List.cons_ne_nil v M3)] at hc
      rw [getLast?_append_right w _ (List.cons_ne_nil ' ' _)] at hc
      have hjoin : joinWordsL (v :: M3) ≠ [] :=
        join_ne_nil (v :: M3) hM2 (List.cons_ne_nil v M3)
      rw [show (' ' :: joinWordsL (v :: M3)).getLast? =
          (joinWordsL (v :: M3)).getLast? from by
        cases hj : joinWordsL (v :: M3) with
        | nil => exact absurd hj hjoin
        | cons y ys => rw [List.getLast?_cons_cons]] at hc
      exact ih hM2 c hc

theorem splitWsL_space (X : List Char) : splitWsL (' ' :: X) = splitWsL X := by
  cases X with
  | nil => rfl
  | cons d X2 =>
    rw [splitWsL_cons_cons]
    rw [if_pos (by decide : isPySpace ' ' = true)]

theorem splitWsL_word_append (w : List Char) (X : List Char)
    (hw : w ≠ []) (hsf : ∀ c ∈ w, isPySpace c = false) :
    splitWsL (w ++ ' ' :: X) = w :: splitWsL X := by
  induction w with
  | nil => exact absurd rfl hw
  | cons c w2 ih =>
    have hc : isPySpace c = false := hsf c (List.mem_cons_self c w2)
    cases w2 with
    | nil =>
      show splitWsL (c :: ' ' :: X) = [c] :: splitWsL X
      rw [splitWsL_cons_cons]
      rw [if_neg (by rw [hc]; exact Bool.false_ne_true)]
      rw [if_pos (by decide : isPySpace ' ' = true)]
      rw [splitWsL_space]
    | cons c2 w3 =>
      have hc2 : isPySpace c2 = false :=
        hsf c2 (List.mem_cons_of_mem c (List.mem_cons_self c2 w3))
      show splitWsL (c :: ((c2 :: w3) ++ ' ' :: X)) = (c :: c2 :: w3) :: splitWsL X
      rw [show c :: ((c2 :: w3) ++ ' ' :: X) = c :: c2 :: (w3 ++ ' ' :: X) from rfl]
      rw [splitWsL_cons_cons]
      rw [if_neg (by rw [hc]; exact Bool.false_ne_true)]
      rw [if_neg (by rw [hc2]; exact Bool.false_ne_true)]
      rw [show c2 :: (w3 ++ ' ' :: X) = (c2 :: w3) ++ ' ' :: X from rfl]
      rw [ih (List.cons_ne_nil c2 w3) (fun x hx => hsf x (List.mem_cons_of_mem c hx))]
      rfl

theorem splitWsL_word (w : List Char) (hw : w ≠ [])
    (hsf : ∀ c ∈ w, isPySpace c = false) : splitWsL w = [w] := by
  induction w with
  | nil => exact absurd rfl hw
  | cons c w2 ih =>
    have hc : isPySpace c = false := hsf c (List.mem_cons_self c w2)
    cases w2 with
    | nil =>
      rw [splitWsL_cons_nil]
      rw [if_neg (by rw [hc]; exact Bool.false_ne_true)]
    | cons c2 w3 =>
      have hc2 : isPySpace c2 = false :=
        hsf c2 (List.mem_cons_of_mem c (List.mem_cons_self c2 w3))
      rw [splitWsL_cons_cons]
      rw [if_neg (by rw [hc]; exact Bool.false_ne_true)]
      rw [if_neg (by rw [hc2]; exact Bool.false_ne_true)]
      rw [ih (List.cons_ne_nil c2 w3) (fun x hx => hsf x (List.mem_cons_of_mem c hx))]
      rfl

theorem split_join (M : List (List Char)) (hM : goodWs M) :
    splitWsL (joinWordsL M) = M := by
  induction M with
  | nil => rfl
  | cons w M2 ih =>
    have hw : goodW w := hM w (List.mem_cons_self w M2)
    have hM2 : goodWs M2 := fun x hx => hM x (List.mem_cons_of_mem w hx)
    cases M2 with
    | nil => exact splitWsL_word w hw.1 hw.2
    | cons v M3 =>
      rw [joinWordsL_cons_ne w _ (List.cons_ne_nil v M3)]
      rw [splitWsL_word_append w _ hw.1 hw.2]
      rw [ih hM2]

theorem kShapedP_mem_nospace :
    ∀ (p : List Char), kShapedP p → ∀ c ∈ p, isPySpace c = false := by
  intro p
  induction p with
  | nil => intro _ c hc; exact absurd hc (List.not_mem_nil c)
  | cons c p2 ih =>
    intro h x hx
    cases p2 with
    | nil =>
      rcases List.mem_singleton.mp hx with rfl
      exact h
    | cons d p3 =>
      rw [kShapedP_cons2] at h
      rcases List.mem_cons.mp hx with rfl | h2
      · exact h.1
      · exact ih h.2.2 x h2

theorem kShapedP_goodW {p : List Char} (h : kShapedP p) : goodW p :=
  ⟨kShapedP_ne_nil h, kShapedP_mem_nospace p h⟩

theorem piecesOf_good (G : List (List Char)) (hG : goodWs G) : goodWs (piecesOf G) := by
  induction G with
  | nil => intro p hp; exact absurd hp (List.not_mem_nil p)
  | cons g G2 ih =>
    have hg : goodW g := hG g (List.mem_cons_self g G2)
    have hG2 : goodWs G2 := fun x hx => hG x (List.mem_cons_of_mem g hx)
    intro p hp
    rcases List.mem_append.mp hp with h | h
    · exact kShapedP_goodW (kOfWord_kShaped g hg.2 p h)
    · exact ih hG2 p h

/-- The composition inside normalize before the final uppercase: collapse
whitespace, delete comma-adjacent spaces, expand commas, strip. -/
def coreN (l : List Char) : List Char :=
  pyStripL (expandComma (delCommaSpace (delSpaceComma (joinWordsL (splitWsL l)))))

theorem coreN_eq (l : List Char) :
    coreN l = joinWordsL (piecesOf (glue (splitWsL l))) := by
  have h0 : goodWs (splitWsL l) := splitWs_good l
  have hglue := glue_glued_aux (splitWsL l).length (splitWsL l) Nat.le.refl h0
  have hpieces : goodWs (piecesOf (glue (splitWsL l))) :=
    piecesOf_good _ hglue.2
  unfold coreN
  rw [delSpaceComma_join _ h0, delCommaSpace_interS1 _ h0, tightJoin_eq_glue _ h0]
  rw [expandComma_join _ hglue.1 hglue.2]
  by_cases ht : (((glue (splitWsL l)).getLast?).getD []).getLast? = some ','
  · rw [show commaTrail (((glue (splitWsL l)).getLast?).getD []) = [' '] from
      if_pos ht]
    exact pyStripL_append_space _ (join_head_nospace _ hpieces)
      (join_last_nospace _ hpieces)
  · rw [show commaTrail (((glue (splitWsL l)).getLast?).getD []) = [] from
      if_neg ht]
    rw [List.append_nil]
    exact pyStripL_id _ (join_head_nospace _ hpieces) (join_last_nospace _ hpieces)

theorem coreN_idem (l : List Char) : coreN (coreN l) = coreN l := by
  have h0 : goodWs (splitWsL l) := splitWs_good l
  have hglue := glue_glued_aux (splitWsL l).length (splitWsL l) Nat.le.refl h0
  have hpieces : goodWs (piecesOf (glue (splitWsL l))) :=
    piecesOf_good _ hglue.2
  rw [coreN_eq l]
  rw [coreN_eq (joinWordsL (piecesOf (glue (splitWsL l))))]
  rw [split_join _ hpieces]
  rw [glue_pieces _ hglue.1 hglue.2]

/-- Adjacent-pair scan: f holds of every pair of adjacent characters. -/
def adjOK (f : Char → Char → Bool) : List Char → Bool
  | [] => true
  | [_] => true
  | c :: d :: cs => f c d && adjOK f (d :: cs)

theorem adjOK_nil (f : Char → Char → Bool) : adjOK f [] = true := rfl

theorem adjOK_one (f : Char → Char → Bool) (c : Char) : adjOK f [c] = true := rfl

theorem adjOK_cons2 (f : Char → Char → Bool) (c d : Char) (cs : List Char) :
    adjOK f (c :: d :: cs) = (f c d && adjOK f (d :: cs)) := rfl

/-- Every comma that has a successor is immediately followed by a space. -/
def commaSpaceRule (c d : Char) : Bool := (!decide (c = ',')) || decide (d = ' ')

/-- No two adjacent spaces. -/
def noTwoSpaces (c d : Char) : Bool := !(decide (c = ' ') && decide (d = ' '))

/-- The claim sentence read literally: every comma in the string, even a
final one, is followed by exactly one space. -/
def everyCommaSpaced : List Char → Bool
  | [] => true
  | [c] => !decide (c = ',')
  | c :: d :: cs => ((!decide (c = ',')) || decide (d = ' ')) && everyCommaSpaced (d :: cs)

theorem mem_of_headOpt {c : Char} {l : List Char} (h : l.head? = some c) : c ∈ l := by
  cases l with
  | nil => exact Option.noConfusion h
  | cons d l2 =>
    rw [show (d :: l2).head? = some d from rfl] at h
    rw [← Option.some.inj h]
    exact List.mem_cons_self d l2

theorem mem_of_getLastOpt {c : Char} {l : List Char} (h : l.getLast? = some c) : c ∈ l := by
  rw [← List.head?_reverse] at h
  exact List.mem_reverse.mp (mem_of_headOpt h)

theorem adjOK_append_iff (f : Char → Char → Bool) (x : List Char) (e : Char)
    (ys : List Char) :
    adjOK f (x ++ e :: ys) = true ↔
      (adjOK f x = true ∧ (∀ c, x.getLast? = some c → f c e = true) ∧
        adjOK f (e :: ys) = true) := by
  induction x with
  | nil =>
    constructor
    · intro h
      exact ⟨rfl, fun c hc => Option.noConfusion hc, h⟩
    · intro h
      exact h.2.2
  | cons c x2 ih =>
    cases x2 with
    | nil =>
      rw [show ([c] ++ e :: ys) = c :: e :: ys from rfl]
      rw [adjOK_cons2, Bool.and_eq_true]
      constructor
      · intro h
        exact ⟨rfl, fun d hd => by rw [← Option.some.inj hd]; exact h.1, h.2⟩
      · intro h
        exact ⟨h.2.1 c rfl, h.2.2⟩
    | cons d x3 =>
      rw [show ((c :: d :: x3) ++ e :: ys) = c :: ((d :: x3) ++ e :: ys) from rfl]
      rw [show ((d :: x3) ++ e :: ys) = d :: (x3 ++ e :: ys) from rfl]
      rw [adjOK_cons2, Bool.and_eq_true]
      rw [show d :: (x3 ++ e :: ys) = (d :: x3) ++ e :: ys from rfl]
      rw [ih]
      rw [adjOK_cons2, Bool.and_eq_true]
      rw [List.getLast?_cons_cons]
      constructor
      · rintro ⟨h1, h2, h3, h4⟩
        exact ⟨⟨h1, h2⟩, h3, h4⟩
      · rintro ⟨⟨h1, h2⟩, h3, h4⟩
        exact ⟨h1, h2, h3, h4⟩

theorem join_head_eq (w : List Char) (M : List (List Char)) (hw : w ≠ []) :
    (joinWordsL (w :: M)).head? = w.head? := by
  cases M with
  | nil => rfl
  | cons v M3 =>
    rw [joinWordsL_cons_ne w _ (List.cons_ne_nil v M3)]
    exact head?_append_left w _ hw

theorem adjOK_join (f : Char → Char → Bool) (P : List (List Char))
    (hP : goodWs P)
    (hpiece : ∀ p ∈ P, adjOK f p = true)
    (hlast : ∀ p ∈ P, ∀ c, p.getLast? = some c → f c ' ' = true)
    (hhead : ∀ p ∈ P, ∀ c, p.head? = some c → f ' ' c = true) :
    adjOK f (joinWordsL P) = true := by
  induction P with
  | nil => rfl
  | cons p Q ih =>
    have hQ : goodWs Q := fun x hx => hP x (List.mem_cons_of_mem p hx)
    cases Q with
    | nil => exact hpiece p (List.mem_cons_self p [])
    | cons q Q2 =>
      rw [joinWordsL_cons_ne p _ (List.cons_ne_nil q Q2)]
      rw [adjOK_append_iff]
      refine ⟨hpiece p (List.mem_cons_self p _),
        fun c hc => hlast p (List.mem_cons_self p _) c hc, ?_⟩
      have hq : goodW q := hQ q (List.mem_cons_self q Q2)
      have hjoin_head : (joinWordsL (q :: Q2)).head? = q.head? :=
        join_head_eq q Q2 hq.1
      have htail : adjOK f (joinWordsL (q :: Q2)) = true :=
        ih hQ (fun x hx => hpiece x (List.mem_cons_of_mem p hx))
          (fun x hx => hlast x (List.mem_cons_of_mem p hx))
          (fun x hx => hhead x (List.mem_cons_of_mem p hx))
      cases hj : joinWordsL (q :: Q2) with
      | nil => exact absurd hj (join_ne_nil (q :: Q2) hQ (List.cons_ne_nil q Q2))
      | cons e zs =>
        rw [adjOK_cons2, Bool.and_eq_true]
        constructor
        · refine hhead q (List.mem_cons_of_mem p (List.mem_cons_self q Q2)) e ?_
          rw [← hjoin_head, hj]
          rfl
        · rw [← hj]
          exact htail

theorem piecesOf_kShaped (G : List (List Char)) (hG : goodWs G) :
    ∀ p ∈ piecesOf G, kShapedP p := by
  induction G with
  | nil => intro p hp; exact absurd hp (List.not_mem_nil p)
  | cons g G2 ih =>
    have hg : goodW g := hG g (List.mem_cons_self g G2)
    have hG2 : goodWs G2 := fun x hx => hG x (List.mem_cons_of_mem g hx)
    intro p hp
    rcases List.mem_append.mp hp with h | h
    · exact kOfWord_kShaped g hg.2 p h
    · exact ih hG2 p h

theorem kShapedP_adjOK_comma {p : List Char} (h : kShapedP p) :
    adjOK commaSpaceRule p = true := by
  induction p with
  | nil => rfl
  | cons c p2 ih =>
    cases p2 with
    | nil => rfl
    | cons d p3 =>
      rw [kShapedP_cons2] at h
      rw [adjOK_cons2, Bool.and_eq_true]
      refine ⟨?_, ih h.2.2⟩
      rw [commaSpaceRule]
      rw [decide_eq_false h.2.1]
      rfl

theorem spacefree_adjOK_nodouble {p : List Char}
    (h : ∀ c ∈ p, isPySpace c = false) : adjOK noTwoSpaces p = true := by
  induction p with
  | nil => rfl
  | cons c p2 ih =>
    cases p2 with
    | nil => rfl
    | cons d p3 =>
      rw [adjOK_cons2, Bool.and_eq_true]
      refine ⟨?_, ih (fun x hx => h x (List.mem_cons_of_mem c hx))⟩
      have hc : c ≠ ' ' := by
        intro hcc
        have := h c (List.mem_cons_self c _)
        rw [hcc] at this
        exact absurd this (by decide)
      rw [noTwoSpaces]
      rw [decide_eq_false hc]
      rfl

theorem adjOK_map (f : Char → Char → Bool)
    (hf : ∀ a b, f (Char.toUpper a) (Char.toUpper b) = f a b) (x : List Char) :
    adjOK f (x.map Char.toUpper) = adjOK f x := by
  induction x with
  | nil => rfl
  | cons c x2 ih =>
    cases x2 with
    | nil => rfl
    | cons d x3 =>
      rw [List.map_cons, List.map_cons, adjOK_cons2, adjOK_cons2]
      rw [show Char.toUpper d :: List.map Char.toUpper x3 =
        List.map Char.toUpper (d :: x3) from rfl]
      rw [ih, hf]

theorem consHead_map (c : Char) (L : List (List Char)) :
    (consHead c L).map (List.map Char.toUpper) =
      consHead (Char.toUpper c) (L.map (List.map Char.toUpper)) := by
  cases L with
  | nil => rfl
  | cons w ws => rfl

theorem splitWsL_map (l : List Char) :
    splitWsL (l.map Char.toUpper) = (splitWsL l).map (List.map Char.toUpper) := by
  induction l with
  | nil => rfl
  | cons c cs ih =>
    cases cs with
    | nil =>
      rw [show ([c] : List Char).map Char.toUpper = [Char.toUpper c] from rfl]
      rw [splitWsL_cons_nil, splitWsL_cons_nil, isPySpace_toUpper]
      by_cases h : isPySpace c = true
      · rw [if_pos h, if_pos h]
        rfl
      · rw [if_neg h, if_neg h]
        rfl
    | cons d cs2 =>
      rw [List.map_cons, List.map_cons, splitWsL_cons_cons, splitWsL_cons_cons]
      rw [isPySpace_toUpper, isPySpace_toUpper]
      rw [show Char.toUpper d :: List.map Char.toUpper cs2 =
        List.map Char.toUpper (d :: cs2) from rfl]
      by_cases h : isPySpace c = true
      · rw [if_pos h, if_pos h, ih]
      · rw [if_neg h, if_neg h]
        by_cases h2 : isPySpace d = true
        · rw [if_pos h2, if_pos h2, ih]
          rfl
        · rw [if_neg h2, if_neg h2, ih, consHead_map]

theorem joinWordsL_map (M : List (List Char)) :
    joinWordsL (M.map (List.map Char.toUpper)) = (joinWordsL M).map Char.toUpper := by
  induction M with
  | nil => rfl
  | cons w M2 ih =>
    cases M2 with
    | nil => rfl
    | cons v M3 =>
      rw [List.map_cons]
      rw [joinWordsL_cons_ne (w.map Char.toUpper) _ (by
        rw [List.map_cons]
        exact List.cons_ne_nil _ _)]
      rw [joinWordsL_cons_ne w _ (List.cons_ne_nil v M3)]
      rw [List.map_append]
      rw [show List.map Char.toUpper (' ' :: joinWordsL (v :: M3)) =
        Char.toUpper ' ' :: List.map Char.toUpper (joinWordsL (v :: M3)) from rfl]
      rw [show Char.toUpper ' ' = ' ' from by decide]
      rw [← ih]

theorem delSpaceComma_map_aux : ∀ (n : Nat) (l : List Char), l.length ≤ n →
    delSpaceComma (l.map Char.toUpper) = (delSpaceComma l).map Char.toUpper := by
  intro n
  induction n with
  | zero =>
    intro l hl
    rw [List.length_eq_zero.mp (Nat.le_zero.mp hl)]
    rfl
  | succ n ih =>
    intro l hl
    match l with
    | [] => rfl
    | [c] => rfl
    | c :: d :: cs =>
      rw [List.map_cons, List.map_cons]
      rw [delSpaceComma_cons2, delSpaceComma_cons2]
      have hiff : (Char.toUpper c = ' ' ∧ Char.toUpper d = ',') ↔ (c = ' ' ∧ d = ',') :=
        and_congr (toUpper_space_iff c) (toUpper_comma_iff d)
      by_cases h : c = ' ' ∧ d = ','
      · rw [if_pos (hiff.mpr h), if_pos h]
        rw [ih cs (by
          have := hl
          simp only [List.length_cons] at this
          omega)]
        rfl
      · rw [if_neg (fun hx => h (hiff.mp hx)), if_neg h]
        rw [show Char.toUpper d :: List.map Char.toUpper cs =
          List.map Char.toUpper (d :: cs) from rfl]
        rw [ih (d :: cs) (by
          have := hl
          simp only [List.length_cons] at this ⊢
          omega)]
        rfl

theorem delSpaceComma_map (l : List Char) :
    delSpaceComma (l.map Char.toUpper) = (delSpaceComma l).map Char.toUpper :=
  delSpaceComma_map_aux l.length l Nat.le.refl

theorem delCommaSpace_map_aux : ∀ (n : Nat) (l : List Char), l.length ≤ n →
    delCommaSpace (l.map Char.toUpper) = (delCommaSpace l).map Char.toUpper := by
  intro n
  induction n with
  | zero =>
    intro l hl
    rw [List.length_eq_zero.mp (Nat.le_zero.mp hl)]
    rfl
  | succ n ih =>
    intro l hl
    match l with
    | [] => rfl
    | [c] => rfl
    | c :: d :: cs =>
      rw [List.map_cons, List.map_cons]
      rw [delCommaSpace_cons2, delCommaSpace_cons2]
      have hiff : (Char.toUpper c = ',' ∧ Char.toUpper d = ' ') ↔ (c = ',' ∧ d = ' ') :=
        and_congr (toUpper_comma_iff c) (toUpper_space_iff d)
      by_cases h : c = ',' ∧ d = ' '
      · rw [if_pos (hiff.mpr h), if_pos h]
        rw [ih cs (by
          have := hl
          simp only [List.length_cons] at this
          omega)]
        rfl
      · rw [if_neg (fun hx => h (hiff.mp hx)), if_neg h]
        rw [show Char.toUpper d :: List.map Char.toUpper cs =
          List.map Char.toUpper (d :: cs) from rfl]
        rw [ih (d :: cs) (by
          have := hl
          simp only [List.length_cons] at this ⊢
          omega)]
        rfl

theorem delCommaSpace_map (l : List Char) :
    delCommaSpace (l.map Char.toUpper) = (delCommaSpace l).map Char.toUpper :=
  delCommaSpace_map_aux l.length l Nat.le.refl

theorem expandComma_map (l : List Char) :
    expandComma (l.map Char.toUpper) = (expandComma l).map Char.toUpper := by
  induction l with
  | nil => rfl
  | cons c cs ih =>
    rw [List.map_cons, expandComma_cons, expandComma_cons]
    by_cases h : c = ','
    · rw [if_pos ((toUpper_comma_iff c).mpr h), if_pos h, ih]
      rfl
    · rw [if_neg (fun hx => h ((toUpper_comma_iff c).mp hx)), if_neg h, ih]
      rfl

theorem dropWhile_map_toUpper (l : List Char) :
    (l.map Char.toUpper).dropWhile isPySpace =
      (l.dropWhile isPySpace).map Char.toUpper := by
  induction l with
  | nil => rfl
  | cons c cs ih =>
    rw [List.map_cons, List.dropWhile_cons, List.dropWhile_cons, isPySpace_toUpper]
    by_cases h : isPySpace c = true
    · rw [if_pos h, if_pos h, ih]
    · rw [if_neg h, if_neg h]
      rfl

theorem pyStripL_map (l : List Char) :
    pyStripL (l.map Char.toUpper) = (pyStripL l).map Char.toUpper := by
  unfold pyStripL
  rw [dropWhile_map_toUpper, ← List.map_reverse, dropWhile_map_toUpper,
    ← List.map_reverse]

theorem coreN_map (l : List Char) :
    coreN (l.map Char.toUpper) = (coreN l).map Char.toUpper := by
  unfold coreN
  rw [splitWsL_map, joinWordsL_map, delSpaceComma_map, delCommaSpace_map,
    expandComma_map, pyStripL_map]

theorem map_upper_idem (x : List Char) :
    (x.map Char.toUpper).map Char.toUpper = x.map Char.toUpper := by
  induction x with
  | nil => rfl
  | cons c cs ih =>
    rw [List.map_cons, List.map_cons, toUpper_toUpper, ih]

/-- Counterexample to claim C5 read literally: the normalized form of
the input "A," is "A," itself, whose trailing comma is followed by no
space at all, so the sentence that every comma occurring in the output
is followed by exactly one space fails. -/
theorem C5_counterexample :
    normalize_name "A," = "A," ∧
      everyCommaSpaced (String.toList (normalize_name "A,")) = false := by
  decide

/-- C5 (amended): for every string s, normalize_name is idempotent, its
output is a fixed point of uppercasing and of stripping, every comma of
the output that has a following character is immediately followed by a
space, and the output never holds two adjacent spaces, so each such
comma is followed by exactly one space. The sole deviation from the
original sentence is a trailing comma, which has no following space. -/
theorem C5_amended_normalize_idempotent_upper_spaced (s : String) :
    normalize_name (normalize_name s) = normalize_name s ∧
    pyUpper (normalize_name s) = normalize_name s ∧
    pyStrip (normalize_name s) = normalize_name s ∧
    adjOK commaSpaceRule (String.toList (normalize_name s)) = true ∧
    adjOK noTwoSpaces (String.toList (normalize_name s)) = true := by
  have hglue := glue_glued_aux (splitWsL s.toList).length (splitWsL s.toList)
    Nat.le.refl (splitWs_good s.toList)
  have hpieces : goodWs (piecesOf (glue (splitWsL s.toList))) :=
    piecesOf_good _ hglue.2
  have hkS : ∀ p ∈ piecesOf (glue (splitWsL s.toList)), kShapedP p :=
    piecesOf_kShaped _ hglue.2
  have hcore : coreN s.toList = joinWordsL (piecesOf (glue (splitWsL s.toList))) :=
    coreN_eq s.toList
  have hstrip : pyStripL (coreN s.toList) = coreN s.toList := by
    rw [hcore]
    exact pyStripL_id _ (join_head_nospace _ hpieces) (join_last_nospace _ hpieces)
  have hfComma : ∀ a b, commaSpaceRule (Char.toUpper a) (Char.toUpper b) =
      commaSpaceRule a b := by
    intro a b
    rw [commaSpaceRule, commaSpaceRule]
    rw [decide_eq_decide.mpr (toUpper_comma_iff a)]
    rw [decide_eq_decide.mpr (toUpper_space_iff b)]
  have hfSpace : ∀ a b, noTwoSpaces (Char.toUpper a) (Char.toUpper b) =
      noTwoSpaces a b := by
    intro a b
    rw [noTwoSpaces, noTwoSpaces]
    rw [decide_eq_decide.mpr (toUpper_space_iff a)]
    rw [decide_eq_decide.mpr (toUpper_space_iff b)]
  have hlist : String.toList (normalize_name s) =
      (coreN s.toList).map Char.toUpper := rfl
  refine ⟨?_, ?_, ?_, ?_, ?_⟩
  · have h2 : normalize_name (normalize_name s) =
        String.mk ((coreN ((coreN s.toList).map Char.toUpper)).map Char.toUpper) :=
      rfl
    have h1 : normalize_name s = String.mk ((coreN s.toList).map Char.toUpper) :=
      rfl
    rw [h2, coreN_map, coreN_idem, map_upper_idem, h1]
  · have h1 : pyUpper (normalize_name s) =
        String.mk (((coreN s.toList).map Char.toUpper).map Char.toUpper) := rfl
    rw [h1, map_upper_idem]
    rfl
  · have h1 : pyStrip (normalize_name s) =
        String.mk (pyStripL ((coreN s.toList).map Char.toUpper)) := rfl
    rw [h1, pyStripL_map, hstrip]
    rfl
  · rw [hlist, adjOK_map commaSpaceRule hfComma, hcore]
    refine adjOK_join commaSpaceRule _ hpieces
      (fun p hp => kShapedP_adjOK_comma (hkS p hp))
      (fun p hp c hc => by
        rw [commaSpaceRule]
        rw [show decide (' ' = ' ') = true from rfl]
        exact Bool.or_true _)
      (fun p hp c hc => by
        rw [commaSpaceRule]
        rw [show decide (' ' = ',') = false from rfl]
        rfl)
  · rw [hlist, adjOK_map noTwoSpaces hfSpace, hcore]
    refine adjOK_join noTwoSpaces _ hpieces
      (fun p hp => spacefree_adjOK_nodouble (hpieces p hp).2)
      (fun p hp c hc => by
        have hns := (hpieces p hp).2 c (mem_of_getLastOpt hc)
        have hcne : c ≠ ' ' := by
          intro he
          rw [he] at hns
          exact absurd hns (by decide)
        rw [noTwoSpaces, decide_eq_false hcne]
        rfl)
      (fun p hp c hc => by
        have hns := (hpieces p hp).2 c (mem_of_headOpt hc)
        have hcne : c ≠ ' ' := by
          intro he
          rw [he] at hns
          exact absurd hns (by decide)
        rw [noTwoSpaces, decide_eq_false hcne]
        rfl)
